import Mathlib

/-!
# Night Shift — motion pipeline, shallow embedding

A shallow embedding, over exact rational arithmetic, of the motion-analysis
pipeline of `src/sketch.js` (both source variants: the full-resolution
pixel-grid sketch and the cell-grid sketch).  The two variants share the
tracking code verbatim up to their configuration constants, so the tracker
here is parameterized by a `Config`; `pixelConfig` and `cellConfig` are the
two constant sets that appear in the source.

Modelling conventions, used throughout:

* JS `number` values are modelled as `ℚ`.  Every arithmetic operation the
  pipeline performs (sums, absolute differences, divisions, EMA updates)
  is exact on the rationals the pipeline actually produces.
* `Math.sqrt` appears in the source only in two places: the blob-to-trail
  match distance, which is immediately compared with `<` against a
  nonnegative bound, and `trail.speed`, which is stored but never branched
  on.  Since `Math.sqrt` is strictly monotone on nonnegative arguments,
  `sqrt d < b ↔ d < b*b` for `b ≥ 0`; the embedding therefore carries the
  squared quantities (`speedSq`, squared distances compared against the
  squared gate) and performs exactly the source's comparisons.
* The JS object `motionTrails` iterates its (non-numeric) string keys in
  insertion order; it is modelled as an insertion-ordered association list
  `List (ℕ × Trail)`, with `delete` as a filter and insertion as an append.
* Trail ids `"blob_" + Date.now() + "_" + random` are modelled by a
  monotone counter `nextId` (a fresh id per created trail; the source ids
  are fresh up to the astronomically unlikely timestamp/random collision).
* Pixel buffers are flat RGBA channel maps `ℕ → ℚ` indexed exactly as the
  source indexes `image.pixels` (`(y*w + x)*4 + channel`).
-/

namespace NightShift

/-- The configuration constants recognized by the sketches
(`src/sketch.js` lines 6-17 and 416-430). -/
structure Config where
  motionThreshold : ℚ
  minBlobSize : ℕ
  maxBlobs : ℕ
  gridSize : ℕ
  minGridsForBlob : ℕ
  positionSmoothFactor : ℚ
  velocitySmoothFactor : ℚ
  maxTrailLength : ℕ
  trailDecay : ℚ
  maxMatchDistance : ℚ
deriving DecidableEq

/-- The constants of the pixel-grid variant (`src/sketch.js` lines 6-17;
its `matchDistance = 50` is the local constant of `trackBlobs`, line 232).
`gridSize = 1` and `minGridsForBlob` are not used by this variant. -/
def pixelConfig : Config :=
  { motionThreshold := 30, minBlobSize := 200, maxBlobs := 10,
    gridSize := 1, minGridsForBlob := 1,
    positionSmoothFactor := 0.8, velocitySmoothFactor := 0.7,
    maxTrailLength := 30, trailDecay := 8, maxMatchDistance := 50 }

/-- The constants of the cell-grid variant (`src/sketch.js` lines 416-430).
`minBlobSize` is not used by this variant. -/
def cellConfig : Config :=
  { motionThreshold := 20, minBlobSize := 200, maxBlobs := 100,
    gridSize := 10, minGridsForBlob := 1,
    positionSmoothFactor := 0.8, velocitySmoothFactor := 0.5,
    maxTrailLength := 50, trailDecay := 8, maxMatchDistance := 100 }

/-- One recorded trail position (the record pushed by `updateTrail`,
`src/sketch.js` lines 330-336 / 726-732).  `speedSq` is the square of the
stored `speed` (see the module comment). -/
structure TrailPos where
  x : ℚ
  y : ℚ
  speedSq : ℚ
  diff : ℚ
  age : ℚ
deriving DecidableEq

/-- A trail (the record created in `trackBlobs`, `src/sketch.js`
lines 269-275 / 666-672).  `speedSq` is the square of the stored `speed`. -/
structure Trail where
  positions : List TrailPos
  velocityX : ℚ
  velocityY : ℚ
  smoothedX : ℚ
  smoothedY : ℚ
  speedSq : ℚ
  active : Bool
deriving DecidableEq

/-- The blob fields the tracker reads (`centerX`, `centerY`, `avgDiff`);
both variants' detectors produce them. -/
structure MBlob where
  centerX : ℚ
  centerY : ℚ
  avgDiff : ℚ
deriving DecidableEq

/-- The tracker's persistent state: the `motionTrails` map (insertion
ordered) and the id counter modelling fresh id generation. -/
structure TrackerState where
  trails : List (ℕ × Trail)
  nextId : ℕ
deriving DecidableEq

/-- Function `updateTrail(id, blob)` from `src/sketch.js` lines 299-342 / 694-738,
as a function of the trail being updated.  The raw velocity is zero when
the position list is empty (the source's `positions.length > 0` guard);
the EMA updates, the position push with `age = 255`, and the FIFO `shift`
beyond `maxTrailLength` are verbatim.  `speedSq` carries
`trail.speed * trail.speed`. -/
def updateTrail (cfg : Config) (blob : MBlob) (t : Trail) : Trail :=
  let vx : ℚ := match t.positions.getLast? with
    | some lastPos => blob.centerX - lastPos.x
    | none => 0
  let vy : ℚ := match t.positions.getLast? with
    | some lastPos => blob.centerY - lastPos.y
    | none => 0
  let velX := t.velocityX * cfg.velocitySmoothFactor + vx * (1 - cfg.velocitySmoothFactor)
  let velY := t.velocityY * cfg.velocitySmoothFactor + vy * (1 - cfg.velocitySmoothFactor)
  let spSq := velX * velX + velY * velY
  let smX := t.smoothedX * cfg.positionSmoothFactor + blob.centerX * (1 - cfg.positionSmoothFactor)
  let smY := t.smoothedY * cfg.positionSmoothFactor + blob.centerY * (1 - cfg.positionSmoothFactor)
  let ps := t.positions ++ [{ x := smX, y := smY, speedSq := spSq, diff := blob.avgDiff, age := 255 }]
  { positions := if cfg.maxTrailLength < ps.length then ps.tail else ps,
    velocityX := velX, velocityY := velY,
    smoothedX := smX, smoothedY := smY, speedSq := spSq, active := true }

/-- The squared distance from a blob's centroid to a trail's most recent
recorded position (`src/sketch.js` lines 252-254 / 650-652 compute its
square root). -/
def dist2 (blob : MBlob) (p : TrailPos) : ℚ :=
  (blob.centerX - p.x) * (blob.centerX - p.x) + (blob.centerY - p.y) * (blob.centerY - p.y)

/-- The nearest-trail scan for one blob (`src/sketch.js` lines 241-260 /
642-658): a fold over the trail map in iteration order, skipping already
matched trails, keeping the strictly closest so far, starting from the
match-distance gate.  Distances are compared squared (see the module
comment).  A trail with no recorded position is skipped, as in the source
(there `lastPos` is `undefined` and the `NaN` distance fails the `<`). -/
def matchScanStep (matched : List ℕ) (blob : MBlob)
    (acc : Option ℕ × ℚ) (it : ℕ × Trail) : Option ℕ × ℚ :=
  if it.1 ∈ matched then acc
  else match it.2.positions.getLast? with
    | some lastPos =>
        if dist2 blob lastPos < acc.2 then (some it.1, dist2 blob lastPos) else acc
    | none => acc

/-- The result of the nearest-trail scan: the first component of the fold
of `matchScanStep` seeded with no candidate at the squared gate. -/
def bestMatchFor (cfg : Config) (matched : List ℕ) (trails : List (ℕ × Trail))
    (blob : MBlob) : Option ℕ :=
  (trails.foldl (matchScanStep matched blob)
    ((none : Option ℕ), cfg.maxMatchDistance * cfg.maxMatchDistance)).1

/-- Replace the entry with the given key (JS `motionTrails[id] = ...` /
mutation through `motionTrails[id]`). -/
def setTrail (id : ℕ) (f : Trail → Trail) (trails : List (ℕ × Trail)) : List (ℕ × Trail) :=
  trails.map (fun it => if it.1 = id then (it.1, f it.2) else it)

/-- The state threaded through the per-blob loop of `trackBlobs`:
the trail map, the `matchedTrailIds` set, the fresh-id counter, and (as
instrumentation, read by nothing) the `(trail id, was created)` binding
recorded for each processed blob. -/
structure MatchState where
  trails : List (ℕ × Trail)
  matched : List ℕ
  nextId : ℕ
  bindings : List (ℕ × Bool)
deriving DecidableEq

/-- The body of `blobs.forEach` in `trackBlobs` (`src/sketch.js`
lines 240-278 / 641-675): bind the blob to the best unmatched trail if one
is strictly within the match distance, otherwise allocate a fresh trail
(initial smoothed position at the blob centroid, zero velocity, zero
speed, active) and immediately update it. -/
def processBlob (cfg : Config) (s : MatchState) (blob : MBlob) : MatchState :=
  match bestMatchFor cfg s.matched s.trails blob with
  | some id =>
      { s with trails := setTrail id (updateTrail cfg blob) s.trails,
               matched := s.matched ++ [id],
               bindings := s.bindings ++ [(id, false)] }
  | none =>
      let id := s.nextId
      let newTrail : Trail :=
        { positions := [], velocityX := 0, velocityY := 0,
          smoothedX := blob.centerX, smoothedY := blob.centerY,
          speedSq := 0, active := true }
      { trails := setTrail id (updateTrail cfg blob) (s.trails ++ [(id, newTrail)]),
        matched := s.matched,
        nextId := s.nextId + 1,
        bindings := s.bindings ++ [(id, true)] }

/-- The aging body applied to one trail at the end of a tick
(`src/sketch.js` lines 284-290 / 681-685): decrement every position's age
by `trailDecay`, then keep only positions with `age > 0`. -/
def ageTrail (cfg : Config) (t : Trail) : Trail :=
  { t with positions :=
      ((t.positions.map (fun p => { p with age := p.age - cfg.trailDecay })).filter
        (fun p => decide (0 < p.age))) }

/-- The aging loop over the whole trail map (`src/sketch.js` lines 281-296
/ 678-691): age every trail, then delete trails left with no positions. -/
def agePhase (cfg : Config) (trails : List (ℕ × Trail)) : List (ℕ × Trail) :=
  (trails.map (fun it => (it.1, ageTrail cfg it.2))).filter
    (fun it => !it.2.positions.isEmpty)

/-- Function `trackBlobs(blobs)` from `src/sketch.js` lines 229-297 / 632-692: mark
every trail inactive, run the per-blob matching loop in detector output
order, then run the aging loop.  Returns the next state together with the
per-blob bindings (instrumentation only). -/
def trackBlobs (cfg : Config) (s : TrackerState) (blobs : List MBlob) :
    TrackerState × List (ℕ × Bool) :=
  let inactive := s.trails.map (fun it => (it.1, { it.2 with active := false }))
  let m := blobs.foldl (processBlob cfg)
    { trails := inactive, matched := [], nextId := s.nextId, bindings := [] }
  ({ trails := agePhase cfg m.trails, nextId := m.nextId }, m.bindings)

/-- Run one tick per element of `bss` (each element is one tick's blob
list), threading the tracker state. -/
def runTicks (cfg : Config) : TrackerState → List (List MBlob) → TrackerState
  | s, [] => s
  | s, bs :: rest => runTicks cfg (trackBlobs cfg s bs).1 rest

/-- Returns `true` iff the trail id is bound by no blob in any of the ticks of
`bss`, run from state `s`. -/
def notBoundDuring (cfg : Config) (id : ℕ) : TrackerState → List (List MBlob) → Bool
  | _, [] => true
  | s, bs :: rest =>
      !((trackBlobs cfg s bs).2.map Prod.fst).contains id &&
        notBoundDuring cfg id (trackBlobs cfg s bs).1 rest

/-- The 4-connected neighbourhood offsets used by both flood fills
(`src/sketch.js` lines 188-193 / 566-571). -/
def neighborOffsets : List (ℤ × ℤ) := [(-1, 0), (1, 0), (0, -1), (0, 1)]

namespace Pixel

/-- One member pixel of a blob (`blob.pixels.push({x, y, diff})`,
`src/sketch.js` line 182). -/
structure PixelRec where
  x : ℕ
  y : ℕ
  diff : ℚ
deriving DecidableEq

/-- A blob of the pixel-grid variant (`src/sketch.js` lines 164-170);
`centerX`, `centerY`, `totalDiff` accumulate during the flood fill and
`centerX`, `centerY`, `avgDiff` are divided through at the end. -/
structure Blob where
  pixels : List PixelRec
  avgDiff : ℚ
  totalDiff : ℚ
  centerX : ℚ
  centerY : ℚ
deriving DecidableEq

/-- The `motionPixels` signal computed by `draw` (`src/sketch.js`
lines 84-111): per pixel, the mean of the absolute RGB channel
differences, kept iff it strictly exceeds the motion threshold, else `0`.
`curr` and `prev` are flat RGBA channel maps; pixel `(x, y)` of a
width-`w` frame starts at channel index `(y*w + x)*4 = idx*4`, so the
signal is a function of the flat pixel index alone. -/
def motionPixels (cfg : Config) (curr prev : ℕ → ℚ) (idx : ℕ) : ℚ :=
  let i := idx * 4
  let diffR := |curr i - prev i|
  let diffG := |curr (i + 1) - prev (i + 1)|
  let diffB := |curr (i + 2) - prev (i + 2)|
  let avgDiff := (diffR + diffG + diffB) / 3
  if cfg.motionThreshold < avgDiff then avgDiff else 0

/-- The flood-fill loop of `findMotionBlobs` (`src/sketch.js`
lines 176-210): FIFO queue of pixel indices, visited-set discipline,
4-connected in-bounds neighbours with positive signal.  `fuel` bounds the
iteration count (each dequeued index was enqueued exactly once while
unvisited, so `w*h` fuel is never exhausted). -/
def bfs (w h : ℕ) (signal : ℕ → ℚ) :
    ℕ → List ℕ → (ℕ → Bool) → Blob → Blob × (ℕ → Bool)
  | 0, _, visited, blob => (blob, visited)
  | _ + 1, [], visited, blob => (blob, visited)
  | fuel + 1, pixelIndex :: queue, visited, blob =>
    let x := pixelIndex % w
    let y := pixelIndex / w
    let blob' : Blob :=
      { pixels := blob.pixels ++ [{ x := x, y := y, diff := signal pixelIndex }],
        totalDiff := blob.totalDiff + signal pixelIndex,
        centerX := blob.centerX + (x : ℚ),
        centerY := blob.centerY + (y : ℚ),
        avgDiff := blob.avgDiff }
    let step := fun (qv : List ℕ × (ℕ → Bool)) (n : ℤ × ℤ) =>
      let nx : ℤ := (x : ℤ) + n.1
      let ny : ℤ := (y : ℤ) + n.2
      if 0 ≤ nx ∧ nx < (w : ℤ) ∧ 0 ≤ ny ∧ ny < (h : ℤ) then
        let ni : ℕ := (ny * (w : ℤ) + nx).toNat
        if 0 < signal ni ∧ qv.2 ni = false then
          (qv.1 ++ [ni], fun j => if j = ni then true else qv.2 j)
        else qv
      else qv
    let qv := neighborOffsets.foldl step (queue, visited)
    bfs w h signal fuel qv.1 qv.2 blob'

/-- One step of the outer scan of `findMotionBlobs` (`src/sketch.js`
lines 161-222): at an unvisited positive-signal index start a flood fill,
then keep the blob iff its pixel count strictly exceeds `minBlobSize`,
dividing the accumulated centroid and intensity sums by the count. -/
def scanStep (cfg : Config) (w h : ℕ) (signal : ℕ → ℚ)
    (acc : List Blob × (ℕ → Bool)) (i : ℕ) : List Blob × (ℕ → Bool) :=
  if 0 < signal i ∧ acc.2 i = false then
    let r := bfs w h signal (w * h) [i] (fun j => if j = i then true else acc.2 j)
      { pixels := [], avgDiff := 0, totalDiff := 0, centerX := 0, centerY := 0 }
    if cfg.minBlobSize < r.1.pixels.length then
      (acc.1 ++ [{ r.1 with
          centerX := r.1.centerX / (r.1.pixels.length : ℚ),
          centerY := r.1.centerY / (r.1.pixels.length : ℚ),
          avgDiff := r.1.totalDiff / (r.1.pixels.length : ℚ) }], r.2)
    else (acc.1, r.2)
  else acc

/-- The blobs pushed by the single full scan, in discovery order
(`src/sketch.js` lines 158-222; the scan flattens the row-major pixel
order `i = y*w + x`). -/
def discoveredBlobs (cfg : Config) (w h : ℕ) (signal : ℕ → ℚ) : List Blob :=
  ((List.range (w * h)).foldl (scanStep cfg w h signal) ([], fun _ => false)).1

/-- Function `findMotionBlobs()` of the pixel-grid variant (`src/sketch.js`
lines 156-227): scan, then the ES2019-stable
`sort((a, b) => b.pixels.length - a.pixels.length)` (an element `a` may
stay before `b` iff `b.pixels.length ≤ a.pixels.length`), then
`slice(0, maxBlobs)`. -/
def findMotionBlobs (cfg : Config) (w h : ℕ) (signal : ℕ → ℚ) : List Blob :=
  ((discoveredBlobs cfg w h signal).mergeSort
    (fun a b => decide (b.pixels.length ≤ a.pixels.length))).take cfg.maxBlobs

end Pixel

namespace Cell

/-- Function `getBrightness(index, image)` (`src/sketch.js` lines 516-522). -/
def getBrightness (image : ℕ → ℚ) (index : ℕ) : ℚ :=
  image index * 0.212 + image (index + 1) * 0.715 + image (index + 2) * 0.072

/-- The alpha channel of `createDifferenceImage(currFrame, prevFrame)`
(`src/sketch.js` lines 496-514): per pixel, the absolute brightness
difference of the two frames.  The RGB channels are set to the constant
`255` and read by nothing downstream, so only the alpha map is carried.
(The canvas stores the alpha rounded to the nearest 8-bit integer; the
rounding is not modelled, and the one claim that reaches through it —
identical frames — concerns the value `0`, which rounds to itself.) -/
def createDifferenceImage (currFrame prevFrame : ℕ → ℚ) (idx : ℕ) : ℚ :=
  |getBrightness currFrame (idx * 4) - getBrightness prevFrame (idx * 4)|

/-- One cell of the motion grid (`src/sketch.js` line 535). -/
structure GridCell where
  motion : Bool
  avgDiff : ℚ
deriving DecidableEq

/-- The accumulation loop over all pixels (`src/sketch.js` lines 539-551):
a pixel whose alpha strictly exceeds the threshold marks its cell
`motion` and adds its alpha to the cell's `avgDiff` accumulator.  The
grid is a map from `(gridY, gridX)`; the row-major pixel order of the
double loop is flattened as `idx = y*w + x`. -/
def accumStep (cfg : Config) (w : ℕ) (signal : ℕ → ℚ)
    (g : ℕ × ℕ → GridCell) (idx : ℕ) : ℕ × ℕ → GridCell := fun c =>
  let x := idx % w
  let y := idx / w
  let gx := x / cfg.gridSize
  let gy := y / cfg.gridSize
  if cfg.motionThreshold < signal idx ∧ c = (gy, gx) then
    { motion := true, avgDiff := (g (gy, gx)).avgDiff + signal idx }
  else g c

/-- The accumulated (pre-normalization) grid: the fold of `accumStep` over
the row-major pixel indices. -/
def rawGrid (cfg : Config) (w h : ℕ) (signal : ℕ → ℚ) : ℕ × ℕ → GridCell :=
  (List.range (w * h)).foldl (accumStep cfg w signal)
    (fun _ => { motion := false, avgDiff := 0 })

/-- The normalization pass (`src/sketch.js` lines 554-560): each motion
cell's accumulated sum is divided by `GRID_SIZE * GRID_SIZE`.  (The
source's loop touches each in-range cell once; out-of-range cells are
`⟨false, 0⟩` and unchanged either way, so the pointwise map is the loop's
result at every cell.) -/
def grid (cfg : Config) (w h : ℕ) (signal : ℕ → ℚ) (c : ℕ × ℕ) : GridCell :=
  let cell := rawGrid cfg w h signal c
  if cell.motion then
    { cell with avgDiff := cell.avgDiff / ((cfg.gridSize : ℚ) * (cfg.gridSize : ℚ)) }
  else cell

/-- A blob of the cell-grid variant (`src/sketch.js` lines 617-622). -/
structure Blob where
  centerX : ℚ
  centerY : ℚ
  avgDiff : ℚ
  size : ℕ
deriving DecidableEq

/-- The flood-fill accumulators of the cell-grid variant
(`src/sketch.js` lines 577-580). -/
structure BlobAcc where
  cells : List (ℕ × ℕ)
  totalDiff : ℚ
  centerX : ℚ
  centerY : ℚ
deriving DecidableEq

/-- The connected-component queue loop over cells (`src/sketch.js`
lines 582-610); queue entries are `(x, y)` cell coordinates and the grid
is read at `(y, x)`. -/
def bfs (gw gh : ℕ) (g : ℕ × ℕ → GridCell) :
    ℕ → List (ℕ × ℕ) → (ℕ × ℕ → Bool) → BlobAcc → BlobAcc × (ℕ × ℕ → Bool)
  | 0, _, visited, acc => (acc, visited)
  | _ + 1, [], visited, acc => (acc, visited)
  | fuel + 1, cell :: queue, visited, acc =>
    let acc' : BlobAcc :=
      { cells := acc.cells ++ [cell],
        totalDiff := acc.totalDiff + (g (cell.2, cell.1)).avgDiff,
        centerX := acc.centerX + (cell.1 : ℚ),
        centerY := acc.centerY + (cell.2 : ℚ) }
    let step := fun (qv : List (ℕ × ℕ) × (ℕ × ℕ → Bool)) (n : ℤ × ℤ) =>
      let nx : ℤ := (cell.1 : ℤ) + n.1
      let ny : ℤ := (cell.2 : ℤ) + n.2
      if 0 ≤ nx ∧ nx < (gw : ℤ) ∧ 0 ≤ ny ∧ ny < (gh : ℤ) then
        let nc : ℕ × ℕ := (nx.toNat, ny.toNat)
        if (g (nc.2, nc.1)).motion = true ∧ qv.2 nc = false then
          (qv.1 ++ [nc], fun j => if j = nc then true else qv.2 j)
        else qv
      else qv
    let qv := neighborOffsets.foldl step (queue, visited)
    bfs gw gh g fuel qv.1 qv.2 acc'

/-- One step of the outer cell scan (`src/sketch.js` lines 573-626): at an
unvisited motion cell start a flood fill, keep the component iff its cell
count is at least `minGridsForBlob`, and map the mean cell coordinates
back to frame coordinates (`mean * gridSize + gridSize/2`). -/
def scanStep (cfg : Config) (gw gh : ℕ) (g : ℕ × ℕ → GridCell)
    (acc : List Blob × (ℕ × ℕ → Bool)) (i : ℕ) : List Blob × (ℕ × ℕ → Bool) :=
  let x := i % gw
  let y := i / gw
  if (g (y, x)).motion = true ∧ acc.2 (x, y) = false then
    let r := bfs gw gh g (gw * gh) [(x, y)] (fun j => if j = (x, y) then true else acc.2 j)
      { cells := [], totalDiff := 0, centerX := 0, centerY := 0 }
    if cfg.minGridsForBlob ≤ r.1.cells.length then
      (acc.1 ++ [{
          centerX := (r.1.centerX / (r.1.cells.length : ℚ)) * (cfg.gridSize : ℚ)
            + (cfg.gridSize : ℚ) / 2,
          centerY := (r.1.centerY / (r.1.cells.length : ℚ)) * (cfg.gridSize : ℚ)
            + (cfg.gridSize : ℚ) / 2,
          avgDiff := r.1.totalDiff / (r.1.cells.length : ℚ),
          size := r.1.cells.length }], r.2)
    else (acc.1, r.2)
  else acc

/-- The blobs pushed by the cell scan, in discovery order (`src/sketch.js`
lines 573-626; the row-major double loop over cells is flattened as
`i = y*gw + x`). -/
def discoveredBlobs (cfg : Config) (gw gh : ℕ) (g : ℕ × ℕ → GridCell) : List Blob :=
  ((List.range (gw * gh)).foldl (scanStep cfg gw gh g) ([], fun _ => false)).1

/-- The scan state (pushed blobs and visited set) after the first `i` of
the `gw*gh` cell indices. -/
def scanPrefix (cfg : Config) (gw gh : ℕ) (g : ℕ × ℕ → GridCell) (i : ℕ) :
    List Blob × (ℕ × ℕ → Bool) :=
  (List.range i).foldl (scanStep cfg gw gh g) ([], fun _ => false)

/-- The flood fill the scan performs when it reaches index `i` with the
state after the first `i` indices: seeded at cell `(i % gw, i / gw)`,
which is marked visited, exactly as in `scanStep`. -/
def seedFill (cfg : Config) (gw gh : ℕ) (g : ℕ × ℕ → GridCell) (i : ℕ) :
    BlobAcc × (ℕ × ℕ → Bool) :=
  bfs gw gh g (gw * gh) [(i % gw, i / gw)]
    (fun j => if j = (i % gw, i / gw) then true else (scanPrefix cfg gw gh g i).2 j)
    { cells := [], totalDiff := 0, centerX := 0, centerY := 0 }

/-- Function `findMotionBlobs()` of the cell-grid variant (`src/sketch.js`
lines 524-630): build and normalize the cell grid
(`gridWidth = ceil(w / gridSize)`, likewise the height), scan for
components, then the stable `sort((a, b) => b.size - a.size)` and
`slice(0, maxBlobs)`. -/
def findMotionBlobs (cfg : Config) (w h : ℕ) (signal : ℕ → ℚ) : List Blob :=
  let gw := (w + cfg.gridSize - 1) / cfg.gridSize
  let gh := (h + cfg.gridSize - 1) / cfg.gridSize
  ((discoveredBlobs cfg gw gh (grid cfg w h signal)).mergeSort
    (fun a b => decide (b.size ≤ a.size))).take cfg.maxBlobs

end Cell

end NightShift

namespace NightShift

/-- C8: iterating `updateTrail` with a constant blob centroid `D` from a
trail whose smoothed x-position is `0`, with position smoothing factor
`f ∈ [0,1]`, leaves the smoothed x-position at `D * (1 - f ^ k)` after `k`
updates (exact geometric convergence of the EMA
`new = old * f + sample * (1 - f)`, `src/sketch.js` lines 323-327 /
718-723). -/
theorem C8_ema_geometric_convergence (cfg : Config) (f : ℚ)
    (hf : cfg.positionSmoothFactor = f) (hf0 : 0 ≤ f) (hf1 : f ≤ 1)
    (D : ℚ) (blob : MBlob) (hb : blob.centerX = D)
    (t : Trail) (ht : t.smoothedX = 0) (k : ℕ) :
    ((fun tr => updateTrail cfg blob tr)^[k] t).smoothedX = D * (1 - f ^ k) := by
  induction k with
  | zero => simp [ht]
  | succ n ih =>
      rw [Function.iterate_succ_apply']
      simp only [updateTrail, hf, hb] at ih ⊢
      rw [ih]
      ring

/-- A trail holding one position of age `255` at the origin, as left by an
update on the previous tick. -/
def oneAgedPosTrail : Trail :=
  { positions := [{ x := 0, y := 0, speedSq := 0, diff := 0, age := 255 }],
    velocityX := 0, velocityY := 0, smoothedX := 0, smoothedY := 0,
    speedSq := 0, active := true }

/-- C1 (the aging loop `src/sketch.js` lines 281-296 / 678-691 runs over
every trail, not only the unbound ones): a tick in which the single
existing trail IS bound by the single blob (distance `0`) still decrements
the ages of all of that trail's recorded positions — the previously
recorded position drops from `255` to `247`, and even the position
appended this tick by `updateTrail` drops from `255` to `247`, with
`trailDecay = 8`.  The binding `(0, false)` recorded for the blob shows
the trail was bound this tick. -/
theorem C1_aging_also_hits_bound_trails :
    (trackBlobs pixelConfig { trails := [(0, oneAgedPosTrail)], nextId := 1 }
        [{ centerX := 0, centerY := 0, avgDiff := 5 }]).2 = [(0, false)] ∧
    (trackBlobs pixelConfig { trails := [(0, oneAgedPosTrail)], nextId := 1 }
        [{ centerX := 0, centerY := 0, avgDiff := 5 }]).1.trails.map
        (fun it => it.2.positions.map (fun p => p.age)) = [[247, 247]] := by
  constructor <;>
    norm_num [trackBlobs, processBlob, bestMatchFor, matchScanStep, updateTrail, setTrail,
      agePhase, ageTrail, dist2, pixelConfig, oneAgedPosTrail]

/-- A left fold by a function that never moves the accumulator is the
accumulator. -/
theorem foldl_fixed {α β : Type} (f : β → α → β) (l : List α) (b : β)
    (h : ∀ acc, ∀ x ∈ l, f acc x = acc) : l.foldl f b = b := by
  induction l generalizing b with
  | nil => rfl
  | cons a l ih =>
      rw [List.foldl_cons, h b a (List.mem_cons_self a l)]
      exact ih b (fun acc x hx => h acc x (List.mem_cons_of_mem a hx))

/-- C6: on two frames with identical pixel data, the pixel-grid difference
signal (`src/sketch.js` lines 84-111) is zero at every location and its
blob detector returns no blob, and the cell-grid difference image
(`src/sketch.js` lines 496-514) is zero at every location and its blob
detector returns no blob — for every frame size. -/
theorem C6_identical_frames_zero_signal_no_blobs (w h : ℕ) (frame : ℕ → ℚ) :
    (∀ idx, Pixel.motionPixels pixelConfig frame frame idx = 0) ∧
    Pixel.findMotionBlobs pixelConfig w h (Pixel.motionPixels pixelConfig frame frame) = [] ∧
    (∀ idx, Cell.createDifferenceImage frame frame idx = 0) ∧
    Cell.findMotionBlobs cellConfig w h (Cell.createDifferenceImage frame frame) = [] := by
  have hpz : ∀ idx, Pixel.motionPixels pixelConfig frame frame idx = 0 := by
    intro idx
    norm_num [Pixel.motionPixels, pixelConfig]
  have hcz : ∀ idx, Cell.createDifferenceImage frame frame idx = 0 := by
    intro idx
    norm_num [Cell.createDifferenceImage]
  refine ⟨hpz, ?_, hcz, ?_⟩
  · have hscan : Pixel.discoveredBlobs pixelConfig w h
        (Pixel.motionPixels pixelConfig frame frame) = [] := by
      have : (List.range (w * h)).foldl
          (Pixel.scanStep pixelConfig w h (Pixel.motionPixels pixelConfig frame frame))
          ([], fun _ => false) = ([], fun _ => false) := by
        refine foldl_fixed _ _ _ (fun acc x _ => ?_)
        simp [Pixel.scanStep, hpz x]
      simp [Pixel.discoveredBlobs, this]
    simp [Pixel.findMotionBlobs, hscan]
  · have hgrid : Cell.rawGrid cellConfig w h (Cell.createDifferenceImage frame frame)
        = (fun _ => { motion := false, avgDiff := 0 }) := by
      unfold Cell.rawGrid
      refine foldl_fixed _ _ _ (fun acc x _ => funext fun c => ?_)
      norm_num [hcz x, cellConfig, Cell.accumStep]
    have hscan : Cell.discoveredBlobs cellConfig
        ((w + cellConfig.gridSize - 1) / cellConfig.gridSize)
        ((h + cellConfig.gridSize - 1) / cellConfig.gridSize)
        (Cell.grid cellConfig w h (Cell.createDifferenceImage frame frame)) = [] := by
      have hg : ∀ c, Cell.grid cellConfig w h (Cell.createDifferenceImage frame frame) c
          = { motion := false, avgDiff := 0 } := by
        intro c
        simp [Cell.grid, congrFun hgrid c]
      have : (List.range (((w + cellConfig.gridSize - 1) / cellConfig.gridSize) *
          ((h + cellConfig.gridSize - 1) / cellConfig.gridSize))).foldl
          (Cell.scanStep cellConfig ((w + cellConfig.gridSize - 1) / cellConfig.gridSize)
            ((h + cellConfig.gridSize - 1) / cellConfig.gridSize)
            (Cell.grid cellConfig w h (Cell.createDifferenceImage frame frame)))
          ([], fun _ => false) = ([], fun _ => false) := by
        refine foldl_fixed _ _ _ (fun acc x _ => ?_)
        simp [Cell.scanStep, hg]
      simp [Cell.discoveredBlobs, this]
    simp [Cell.findMotionBlobs, hscan]

/-- A left fold preserves any invariant preserved by its step function. -/
theorem foldl_inv {α β : Type} (f : β → α → β) (P : β → Prop) (l : List α) (b : β)
    (hb : P b) (hstep : ∀ acc x, P acc → P (f acc x)) : P (l.foldl f b) := by
  induction l generalizing b with
  | nil => exact hb
  | cons a l ih => exact ih (f b a) (hstep b a hb)

/-- Every blob pushed by the pixel scan has strictly more than
`minBlobSize` pixels (the guard at `src/sketch.js` line 213). -/
theorem pixel_discovered_size (cfg : Config) (w h : ℕ) (signal : ℕ → ℚ) :
    ∀ b ∈ Pixel.discoveredBlobs cfg w h signal, cfg.minBlobSize < b.pixels.length := by
  have := foldl_inv (Pixel.scanStep cfg w h signal)
    (fun acc => ∀ b ∈ acc.1, cfg.minBlobSize < b.pixels.length)
    (List.range (w * h)) ([], fun _ => false) (by simp) ?_
  · exact this
  · intro acc x hacc
    simp only [Pixel.scanStep]
    split
    · split
      · intro b hb
        rcases List.mem_append.mp hb with hb | hb
        · exact hacc b hb
        · simp only [List.mem_singleton] at hb
          subst hb
          assumption
      · exact hacc
    · exact hacc

/-- Every blob pushed by the cell scan has at least `minGridsForBlob`
cells (the guard at `src/sketch.js` line 613). -/
theorem cell_discovered_size (cfg : Config) (gw gh : ℕ) (g : ℕ × ℕ → Cell.GridCell) :
    ∀ b ∈ Cell.discoveredBlobs cfg gw gh g, cfg.minGridsForBlob ≤ b.size := by
  have := foldl_inv (Cell.scanStep cfg gw gh g)
    (fun acc => ∀ b ∈ acc.1, cfg.minGridsForBlob ≤ b.size)
    (List.range (gw * gh)) ([], fun _ => false) (by simp) ?_
  · exact this
  · intro acc x hacc
    simp only [Cell.scanStep]
    split
    · split
      · intro b hb
        rcases List.mem_append.mp hb with hb | hb
        · exact hacc b hb
        · simp only [List.mem_singleton] at hb
          subst hb
          assumption
      · exact hacc
    · exact hacc

/-- The cell that the flat pixel index `idx` of a width-`w` image falls in:
`(gridY, gridX) = (floor(y / gridSize), floor(x / gridSize))` for
`x = idx % w`, `y = idx / w` (`src/sketch.js` lines 543-544). -/
def cellOf (cfg : Config) (w : ℕ) (idx : ℕ) : ℕ × ℕ :=
  (idx / w / cfg.gridSize, idx % w / cfg.gridSize)

/-- Characterization of the accumulation fold: at any cell, the motion
flag records whether some processed pixel above the threshold fell in the
cell, and the accumulator holds the initial value plus the sum of the
above-threshold pixel values that fell in the cell. -/
theorem accum_foldl_spec (cfg : Config) (w : ℕ) (signal : ℕ → ℚ) (c : ℕ × ℕ)
    (l : List ℕ) (g : ℕ × ℕ → Cell.GridCell) :
    (((l.foldl (Cell.accumStep cfg w signal) g) c).motion = true ↔
      ((g c).motion = true ∨ ∃ idx ∈ l, cellOf cfg w idx = c ∧ cfg.motionThreshold < signal idx)) ∧
    ((l.foldl (Cell.accumStep cfg w signal) g) c).avgDiff =
      (g c).avgDiff + ((l.filter (fun idx =>
        decide (cellOf cfg w idx = c ∧ cfg.motionThreshold < signal idx))).map signal).sum := by
  induction l generalizing g with
  | nil => simp
  | cons a l ih =>
      rw [List.foldl_cons]
      rcases ih (Cell.accumStep cfg w signal g a) with ⟨ihm, ihs⟩
      have hstep_motion : ((Cell.accumStep cfg w signal g a) c).motion = true ↔
          ((g c).motion = true ∨ (cellOf cfg w a = c ∧ cfg.motionThreshold < signal a)) := by
        simp only [Cell.accumStep, cellOf]
        by_cases hcond : cfg.motionThreshold < signal a ∧
          c = (a / w / cfg.gridSize, a % w / cfg.gridSize)
        · rw [if_pos hcond]
          exact ⟨fun _ => Or.inr ⟨hcond.2.symm, hcond.1⟩, fun _ => rfl⟩
        · rw [if_neg hcond]
          constructor
          · exact fun hm => Or.inl hm
          · rintro (hm | ⟨hceq, hlt⟩)
            · exact hm
            · exact absurd ⟨hlt, hceq.symm⟩ hcond
      have hstep_sum : ((Cell.accumStep cfg w signal g a) c).avgDiff =
          (g c).avgDiff + (if cellOf cfg w a = c ∧ cfg.motionThreshold < signal a
            then signal a else 0) := by
        simp only [Cell.accumStep, cellOf]
        by_cases hcond : cfg.motionThreshold < signal a ∧
          c = (a / w / cfg.gridSize, a % w / cfg.gridSize)
        · rw [if_pos hcond, if_pos ⟨hcond.2.symm, hcond.1⟩]
          simp [hcond.2]
        · rw [if_neg hcond, if_neg (fun hand => hcond ⟨hand.2, hand.1.symm⟩)]
          ring
      constructor
      · rw [ihm, hstep_motion]
        simp only [List.mem_cons]
        constructor
        · rintro ((hm | hp) | ⟨idx, hidx, hh⟩)
          · exact Or.inl hm
          · exact Or.inr ⟨a, Or.inl rfl, hp⟩
          · exact Or.inr ⟨idx, Or.inr hidx, hh⟩
        · rintro (hm | ⟨idx, (rfl | hidx), hh⟩)
          · exact Or.inl (Or.inl hm)
          · exact Or.inl (Or.inr hh)
          · exact Or.inr ⟨idx, hidx, hh⟩
      · rw [ihs, hstep_sum, List.filter_cons]
        by_cases hp : cellOf cfg w a = c ∧ cfg.motionThreshold < signal a
        · rw [if_pos hp]
          simp only [decide_eq_true_eq, if_pos hp, List.map_cons, List.sum_cons]
          ring
        · rw [if_neg hp]
          simp only [decide_eq_true_eq, if_neg hp]
          ring

/-- Whatever was pushed to the discovered list stays there: the cell scan
only appends. -/
theorem cell_scan_grows (cfg : Config) (gw gh : ℕ) (g : ℕ × ℕ → Cell.GridCell)
    (l : List ℕ) (acc : List Cell.Blob × (ℕ × ℕ → Bool)) (b : Cell.Blob)
    (hb : b ∈ acc.1) :
    b ∈ (l.foldl (Cell.scanStep cfg gw gh g) acc).1 := by
  induction l generalizing acc with
  | nil => exact hb
  | cons x l ih =>
      refine ih _ ?_
      simp only [Cell.scanStep]
      split
      · split
        · exact List.mem_append_left _ hb
        · exact hb
      · exact hb

/-- At an unvisited motion seed, a flood fill with at least
`minGridsForBlob` cells — equality included — pushes a blob of exactly
that size (the inclusive guard at `src/sketch.js` line 613). -/
theorem cell_seed_keep_mem (cfg : Config) (gw gh : ℕ) (g : ℕ × ℕ → Cell.GridCell) (i : ℕ)
    (hmot : (g (i / gw, i % gw)).motion = true)
    (hunvis : (Cell.scanPrefix cfg gw gh g i).2 (i % gw, i / gw) = false)
    (hsize : cfg.minGridsForBlob ≤ (Cell.seedFill cfg gw gh g i).1.cells.length) :
    ∃ b ∈ (Cell.scanStep cfg gw gh g (Cell.scanPrefix cfg gw gh g i) i).1,
      b.size = (Cell.seedFill cfg gw gh g i).1.cells.length := by
  simp only [Cell.scanStep]
  rw [if_pos ⟨hmot, hunvis⟩]
  simp only [Cell.seedFill] at hsize
  rw [if_pos hsize]
  exact ⟨_, List.mem_append_right _ (List.mem_singleton_self _), rfl⟩

/-- A component the scan flood-fills at an unvisited motion seed, with at
least (in particular exactly) `minGridsForBlob` cells, yields a blob of
exactly that size in the discovered list. -/
theorem cell_component_kept (cfg : Config) (gw gh : ℕ) (g : ℕ × ℕ → Cell.GridCell) (i : ℕ)
    (hi : i < gw * gh)
    (hmot : (g (i / gw, i % gw)).motion = true)
    (hunvis : (Cell.scanPrefix cfg gw gh g i).2 (i % gw, i / gw) = false)
    (hsize : cfg.minGridsForBlob ≤ (Cell.seedFill cfg gw gh g i).1.cells.length) :
    ∃ b ∈ Cell.discoveredBlobs cfg gw gh g,
      b.size = (Cell.seedFill cfg gw gh g i).1.cells.length := by
  rcases cell_seed_keep_mem cfg gw gh g i hmot hunvis hsize with ⟨b, hb, hbs⟩
  refine ⟨b, ?_, hbs⟩
  have hn : gw * gh = (i + 1) + (gw * gh - (i + 1)) := by omega
  show b ∈ ((List.range (gw * gh)).foldl (Cell.scanStep cfg gw gh g) ([], fun _ => false)).1
  rw [hn, List.range_add, List.range_succ, List.foldl_append, List.foldl_append]
  refine cell_scan_grows cfg gw gh g _ _ b ?_
  simpa [Cell.scanPrefix] using hb

/-- A 10×10 difference image with exactly one above-threshold pixel: its
cell grid is 1×1 with a single motion cell, one component of exactly
`minGridsForBlob = 1` cells. -/
def C3cellSig : ℕ → ℚ := fun i => if i = 0 then 100 else 0

/-- C3 (amended): the pixel-grid size filter is strict while the
cell-grid one is inclusive.  (1) Every blob the pixel-grid detector
returns has strictly more than `minBlobSize` pixels — the guard
`blob.pixels.length > minBlobSize` at `src/sketch.js` line 213 discards a
component of exactly `minBlobSize` pixels (see the counterexample).
(2) Every blob the cell-grid detector discovers or returns has at least
`minGridsForBlob` cells (`cellsInBlob.length >= MIN_GRIDS_FOR_BLOB`,
line 613).  (3) The cell-grid filter keeps equality: at every unvisited
motion seed of the scan, a flood-filled component with at least — in
particular exactly — `minGridsForBlob` cells contributes a blob of
exactly that size to the discovered list (the returned list is then only
the descending-size sort of that list truncated to the top K).  (4) A
concrete exactly-minimum cell component is returned end to end: on a
10×10 image with one above-threshold pixel, the single one-cell component
— exactly `minGridsForBlob = 1` cells — is the detector's output. -/
theorem C3_min_size_strict_in_pixel_mode_inclusive_in_cell_mode
    (cfg : Config) (w h gw gh : ℕ) (signal : ℕ → ℚ) (g : ℕ × ℕ → Cell.GridCell) (i : ℕ) :
    (∀ b ∈ Pixel.findMotionBlobs cfg w h signal, cfg.minBlobSize < b.pixels.length) ∧
    (∀ b ∈ Cell.discoveredBlobs cfg gw gh g, cfg.minGridsForBlob ≤ b.size) ∧
    (∀ b ∈ Cell.findMotionBlobs cfg w h signal, cfg.minGridsForBlob ≤ b.size) ∧
    (i < gw * gh →
      (g (i / gw, i % gw)).motion = true →
      (Cell.scanPrefix cfg gw gh g i).2 (i % gw, i / gw) = false →
      cfg.minGridsForBlob ≤ (Cell.seedFill cfg gw gh g i).1.cells.length →
      ∃ b ∈ Cell.discoveredBlobs cfg gw gh g,
        b.size = (Cell.seedFill cfg gw gh g i).1.cells.length) ∧
    (cellConfig.minGridsForBlob = 1 ∧
      Cell.findMotionBlobs cellConfig 10 10 C3cellSig
        = [{ centerX := 5, centerY := 5, avgDiff := 1, size := 1 }]) := by
  refine ⟨fun b hb => ?_, cell_discovered_size cfg gw gh g, fun b hb => ?_,
    fun hi hmot hunvis hsize => cell_component_kept cfg gw gh g i hi hmot hunvis hsize,
    rfl, ?_⟩
  · have hb' : b ∈ (Pixel.discoveredBlobs cfg w h signal).mergeSort
        (fun a b => decide (b.pixels.length ≤ a.pixels.length)) :=
      List.mem_of_mem_take hb
    have hmem : b ∈ Pixel.discoveredBlobs cfg w h signal :=
      (List.mergeSort_perm _ _).mem_iff.mp hb'
    exact pixel_discovered_size cfg w h signal b hmem
  · have hb' : b ∈ (Cell.discoveredBlobs cfg ((w + cfg.gridSize - 1) / cfg.gridSize)
        ((h + cfg.gridSize - 1) / cfg.gridSize) (Cell.grid cfg w h signal)).mergeSort
        (fun a b => decide (b.size ≤ a.size)) :=
      List.mem_of_mem_take hb
    have hmem := (List.mergeSort_perm _ _).mem_iff.mp hb'
    exact cell_discovered_size cfg _ _ _ b hmem
  · have hspec := accum_foldl_spec cellConfig 10 C3cellSig (0, 0) (List.range (10 * 10))
      (fun _ => { motion := false, avgDiff := 0 })
    have hfilter : ((List.range (10 * 10)).filter (fun idx =>
        decide (cellOf cellConfig 10 idx = (0, 0) ∧
          cellConfig.motionThreshold < C3cellSig idx))) = [0] := by
      decide
    have hraw : (Cell.rawGrid cellConfig 10 10 C3cellSig (0, 0)).avgDiff = 100 := by
      have h2 := hspec.2
      rw [Cell.rawGrid, h2, hfilter]
      norm_num [C3cellSig]
    have hmot : (Cell.rawGrid cellConfig 10 10 C3cellSig (0, 0)).motion = true := by
      rw [Cell.rawGrid]
      refine hspec.1.mpr (Or.inr ⟨0, by decide, by decide, ?_⟩)
      norm_num [C3cellSig, cellConfig]
    have hmot0 : (Cell.rawGrid cellConfig 10 10 C3cellSig 0).motion = true := hmot
    have hraw0 : (Cell.rawGrid cellConfig 10 10 C3cellSig 0).avgDiff = 100 := hraw
    have hgridmot : (Cell.grid cellConfig 10 10 C3cellSig 0).motion = true := by
      simp only [Cell.grid]
      rw [if_pos hmot0]
      exact hmot0
    have hgridavg : (Cell.grid cellConfig 10 10 C3cellSig 0).avgDiff = 1 := by
      simp only [Cell.grid]
      rw [if_pos hmot0]
      show (Cell.rawGrid cellConfig 10 10 C3cellSig 0).avgDiff
        / ((cellConfig.gridSize : ℚ) * (cellConfig.gridSize : ℚ)) = 1
      rw [hraw0]
      norm_num [cellConfig]
    show ((Cell.discoveredBlobs cellConfig ((10 + cellConfig.gridSize - 1) / cellConfig.gridSize)
        ((10 + cellConfig.gridSize - 1) / cellConfig.gridSize)
        (Cell.grid cellConfig 10 10 C3cellSig)).mergeSort
        (fun a b => decide (b.size ≤ a.size))).take cellConfig.maxBlobs
        = [{ centerX := 5, centerY := 5, avgDiff := 1, size := 1 }]
    have hgw : (10 + cellConfig.gridSize - 1) / cellConfig.gridSize = 1 := by
      norm_num [cellConfig]
    rw [hgw]
    have hdisc : Cell.discoveredBlobs cellConfig 1 1 (Cell.grid cellConfig 10 10 C3cellSig)
        = [{ centerX := 5, centerY := 5, avgDiff := 1, size := 1 }] := by
      show ((List.range (1 * 1)).foldl
        (Cell.scanStep cellConfig 1 1 (Cell.grid cellConfig 10 10 C3cellSig))
        ([], fun _ => false)).1 = _
      norm_num [Cell.scanStep, Cell.bfs, neighborOffsets, hgridmot, hgridavg,
        List.range_succ, show cellConfig.minGridsForBlob = 1 from rfl,
        show (cellConfig.gridSize : ℚ) = 10 from rfl]
    rw [hdisc, List.mergeSort_singleton]
    rfl

/-- A 200×1 signal whose 200 pixels are all in motion: one 4-connected
component of exactly `minBlobSize = 200` pixels. -/
def C3sig : ℕ → ℚ := fun i => if i < 200 then 1 else 0

set_option maxRecDepth 1000000 in
/-- C3 counterexample: on the 200×1 all-motion signal the (unique) motion
component has exactly `minBlobSize = 200` pixels — all 200 signal entries
are positive and the flood fill from pixel 0 collects all 200 of them —
yet the pixel-grid detector returns no blob at all: a component whose size
equals the configured minimum exactly is NOT kept. -/
theorem C3_counterexample_component_of_exactly_min_size_dropped :
    pixelConfig.minBlobSize = 200 ∧
    ((List.range (200 * 1)).filter (fun i => decide (0 < C3sig i))).length = 200 ∧
    (Pixel.bfs 200 1 C3sig (200 * 1) [0] (fun j => if j = 0 then true else false)
      { pixels := [], avgDiff := 0, totalDiff := 0, centerX := 0, centerY := 0 }).1.pixels.length
      = 200 ∧
    Pixel.findMotionBlobs pixelConfig 200 1 C3sig = [] := by
  refine ⟨rfl, by decide, by decide, ?_⟩
  have h : Pixel.discoveredBlobs pixelConfig 200 1 C3sig = [] := by decide
  simp [Pixel.findMotionBlobs, h]

/-- C4 (amended): in cell-grid mode a cell is marked motion iff at least
one pixel inside it strictly exceeds the per-pixel threshold (as the claim
states), but the cell's aggregate intensity is the sum of the contributing
(above-threshold) pixel values divided by the constant cell area
`gridSize * gridSize` (`src/sketch.js` line 557) — not by the number of
contributing pixels, so it is not in general the mean of the contributing
values. -/
theorem C4_cell_motion_iff_and_aggregate_is_sum_over_cell_area
    (cfg : Config) (w h : ℕ) (signal : ℕ → ℚ) (c : ℕ × ℕ) :
    ((Cell.grid cfg w h signal c).motion = true ↔
      ∃ idx ∈ List.range (w * h), cellOf cfg w idx = c ∧ cfg.motionThreshold < signal idx) ∧
    ((Cell.grid cfg w h signal c).motion = true →
      (Cell.grid cfg w h signal c).avgDiff =
        (((List.range (w * h)).filter (fun idx =>
          decide (cellOf cfg w idx = c ∧ cfg.motionThreshold < signal idx))).map signal).sum
          / ((cfg.gridSize : ℚ) * (cfg.gridSize : ℚ))) := by
  rcases accum_foldl_spec cfg w signal c (List.range (w * h))
    (fun _ => { motion := false, avgDiff := 0 }) with ⟨hm, hs⟩
  have hraw_m : (Cell.rawGrid cfg w h signal c).motion = true ↔
      ∃ idx ∈ List.range (w * h), cellOf cfg w idx = c ∧ cfg.motionThreshold < signal idx := by
    rw [Cell.rawGrid]
    rw [hm]
    simp
  have hraw_s : (Cell.rawGrid cfg w h signal c).avgDiff =
      (((List.range (w * h)).filter (fun idx =>
        decide (cellOf cfg w idx = c ∧ cfg.motionThreshold < signal idx))).map signal).sum := by
    rw [Cell.rawGrid, hs]
    simp
  constructor
  · rw [← hraw_m]
    simp only [Cell.grid]
    by_cases hcond : (Cell.rawGrid cfg w h signal c).motion = true
    · rw [if_pos hcond]
    · rw [if_neg hcond]
  · intro hmot
    simp only [Cell.grid] at hmot ⊢
    by_cases hcond : (Cell.rawGrid cfg w h signal c).motion = true
    · rw [if_pos hcond, ← hraw_s]
    · rw [if_neg hcond] at hmot
      exact absurd hmot hcond

/-- A 10×10 difference image whose only above-threshold pixel is pixel 0,
with value `100`: cell `(0,0)` has exactly one contributing pixel. -/
def C4sig : ℕ → ℚ := fun i => if i = 0 then 100 else 0

set_option maxRecDepth 40000 in
/-- C4 counterexample: on `C4sig` the cell `(0,0)` is a motion cell whose
single contributing pixel has value `100`, so the mean of the contributing
values is `100`; but the code stores `100 / (10*10) = 1` as the cell's
aggregate intensity.  The aggregate is NOT the arithmetic mean of the
contributing pixel values. -/
theorem C4_counterexample_aggregate_not_mean_of_contributors :
    (Cell.grid cellConfig 10 10 C4sig (0, 0)).motion = true ∧
    ((List.range (10 * 10)).filter (fun idx =>
      decide (cellOf cellConfig 10 idx = (0, 0) ∧
        cellConfig.motionThreshold < C4sig idx))) = [0] ∧
    C4sig 0 = 100 ∧
    (Cell.grid cellConfig 10 10 C4sig (0, 0)).avgDiff = 1 ∧ (1 : ℚ) ≠ 100 := by
  have hspec := accum_foldl_spec cellConfig 10 C4sig (0, 0) (List.range (10 * 10))
    (fun _ => { motion := false, avgDiff := 0 })
  have hfilter : ((List.range (10 * 10)).filter (fun idx =>
      decide (cellOf cellConfig 10 idx = (0, 0) ∧
        cellConfig.motionThreshold < C4sig idx))) = [0] := by
    decide
  have hraw : (Cell.rawGrid cellConfig 10 10 C4sig (0, 0)).avgDiff = 100 := by
    have h2 := hspec.2
    rw [Cell.rawGrid, h2, hfilter]
    norm_num [C4sig]
  have hmot : (Cell.rawGrid cellConfig 10 10 C4sig (0, 0)).motion = true := by
    rw [Cell.rawGrid]
    refine hspec.1.mpr (Or.inr ⟨0, by decide, by decide, ?_⟩)
    norm_num [C4sig, cellConfig]
  have hgridmot : (Cell.grid cellConfig 10 10 C4sig (0, 0)).motion = true := by
    simp only [Cell.grid]
    rw [if_pos hmot]
    exact hmot
  have hgridavg : (Cell.grid cellConfig 10 10 C4sig (0, 0)).avgDiff = 1 := by
    simp only [Cell.grid]
    rw [if_pos hmot]
    show (Cell.rawGrid cellConfig 10 10 C4sig (0, 0)).avgDiff
      / ((cellConfig.gridSize : ℚ) * (cellConfig.gridSize : ℚ)) = 1
    rw [hraw]
    norm_num [cellConfig]
  exact ⟨hgridmot, hfilter, rfl, hgridavg, by norm_num⟩

/-- Taking a prefix commutes with filtering: the filter of a prefix is a
prefix of the filter. -/
theorem filter_take_eq_take_filter {α : Type} (p : α → Bool) :
    ∀ (l : List α) (n : ℕ), ∃ m, (l.take n).filter p = (l.filter p).take m := by
  intro l
  induction l with
  | nil => exact fun n => ⟨0, by simp⟩
  | cons a l ih =>
      intro n
      cases n with
      | zero => exact ⟨0, by simp⟩
      | succ n =>
          rcases ih n with ⟨m, hm⟩
          by_cases hp : p a
          · exact ⟨m + 1, by simp [List.take_succ_cons, List.filter_cons, hp, hm]⟩
          · exact ⟨m, by simp [List.take_succ_cons, List.filter_cons, hp, hm]⟩

/-- The stable descending-by-key merge sort leaves each key class in its
original relative order: filtering the sorted list down to the elements of
one key value gives exactly the filter of the input. -/
theorem mergeSort_filter_key_eq {α : Type} (key : α → ℕ) (l : List α) (n : ℕ) :
    (l.mergeSort (fun a b => decide (key b ≤ key a))).filter (fun a => decide (key a = n))
      = l.filter (fun a => decide (key a = n)) := by
  have htrans : ∀ a b c : α, (fun a b => decide (key b ≤ key a)) a b = true →
      (fun a b => decide (key b ≤ key a)) b c = true →
      (fun a b => decide (key b ≤ key a)) a c = true := by
    intro a b c hab hbc
    simp only [decide_eq_true_eq] at *
    exact le_trans hbc hab
  have htot : ∀ a b : α, ((fun a b => decide (key b ≤ key a)) a b ||
      (fun a b => decide (key b ≤ key a)) b a) = true := by
    intro a b
    simp only [Bool.or_eq_true, decide_eq_true_eq]
    exact le_total (key b) (key a)
  have hpw : List.Pairwise (fun a b => (fun a b => decide (key b ≤ key a)) a b = true)
      (l.filter (fun a => decide (key a = n))) := by
    refine List.pairwise_of_forall_mem_list (fun a ha b hb => ?_)
    have ha' := (List.mem_filter.mp ha).2
    have hb' := (List.mem_filter.mp hb).2
    simp only [decide_eq_true_eq] at ha' hb' ⊢
    rw [ha', hb']
  have hsub : (l.filter (fun a => decide (key a = n))).Sublist
      (l.mergeSort (fun a b => decide (key b ≤ key a))) :=
    List.sublist_mergeSort htrans htot hpw (List.filter_sublist l)
  have hsub2 : (l.filter (fun a => decide (key a = n))).Sublist
      ((l.mergeSort (fun a b => decide (key b ≤ key a))).filter (fun a => decide (key a = n))) := by
    have hh := List.Sublist.filter (fun a => decide (key a = n)) hsub
    rwa [List.filter_eq_self.mpr (fun a ha => (List.mem_filter.mp ha).2)] at hh
  have hperm : ((l.mergeSort (fun a b => decide (key b ≤ key a))).filter
      (fun a => decide (key a = n))).Perm (l.filter (fun a => decide (key a = n))) :=
    List.Perm.filter _ (List.mergeSort_perm l _)
  exact (hsub2.eq_of_length hperm.length_eq.symm).symm

/-- The combination `sort by key, descending, stable; take k` is: at most
`k` long, non-increasing in the key, and per key class a prefix of the
input's key class. -/
theorem sortedTake_spec {α : Type} (key : α → ℕ) (l : List α) (k : ℕ) :
    ((l.mergeSort (fun a b => decide (key b ≤ key a))).take k).length ≤ k ∧
    List.Pairwise (fun a b => key b ≤ key a)
      ((l.mergeSort (fun a b => decide (key b ≤ key a))).take k) ∧
    ∀ n, ∃ m, ((l.mergeSort (fun a b => decide (key b ≤ key a))).take k).filter
        (fun a => decide (key a = n)) = (l.filter (fun a => decide (key a = n))).take m := by
  have htrans : ∀ a b c : α, (fun a b => decide (key b ≤ key a)) a b = true →
      (fun a b => decide (key b ≤ key a)) b c = true →
      (fun a b => decide (key b ≤ key a)) a c = true := by
    intro a b c hab hbc
    simp only [decide_eq_true_eq] at *
    exact le_trans hbc hab
  have htot : ∀ a b : α, ((fun a b => decide (key b ≤ key a)) a b ||
      (fun a b => decide (key b ≤ key a)) b a) = true := by
    intro a b
    simp only [Bool.or_eq_true, decide_eq_true_eq]
    exact le_total (key b) (key a)
  refine ⟨by simp [List.length_take], ?_, fun n => ?_⟩
  · have hs := List.sorted_mergeSort htrans htot l
    have hs' := List.Pairwise.sublist (List.take_sublist k _) hs
    exact hs'.imp (fun hab => by simpa using hab)
  · rcases filter_take_eq_take_filter (fun a => decide (key a = n))
      (l.mergeSort (fun a b => decide (key b ≤ key a))) k with ⟨m, hm⟩
    exact ⟨m, by rw [hm, mergeSort_filter_key_eq]⟩

/-- C7: for every input signal and configuration, both detectors return at
most `maxBlobs` blobs, in non-increasing size order, and blobs of equal
size keep their discovery order (for each size class, the returned blobs
of that size are a prefix, in order, of the discovered blobs of that
size).  `src/sketch.js` lines 224-226 / 628-629: stable
`sort((a, b) => bSize - aSize)` then `slice(0, maxBlobs)`. -/
theorem C7_output_sorted_stable_capped (cfg : Config) (w h : ℕ) (signal : ℕ → ℚ) :
    ((Pixel.findMotionBlobs cfg w h signal).length ≤ cfg.maxBlobs ∧
      List.Pairwise (fun a b => b.pixels.length ≤ a.pixels.length)
        (Pixel.findMotionBlobs cfg w h signal) ∧
      ∀ n, ∃ m, (Pixel.findMotionBlobs cfg w h signal).filter
          (fun b => decide (b.pixels.length = n))
        = ((Pixel.discoveredBlobs cfg w h signal).filter
            (fun b => decide (b.pixels.length = n))).take m) ∧
    ((Cell.findMotionBlobs cfg w h signal).length ≤ cfg.maxBlobs ∧
      List.Pairwise (fun a b => b.size ≤ a.size) (Cell.findMotionBlobs cfg w h signal) ∧
      ∀ n, ∃ m, (Cell.findMotionBlobs cfg w h signal).filter (fun b => decide (b.size = n))
        = ((Cell.discoveredBlobs cfg ((w + cfg.gridSize - 1) / cfg.gridSize)
            ((h + cfg.gridSize - 1) / cfg.gridSize) (Cell.grid cfg w h signal)).filter
            (fun b => decide (b.size = n))).take m) := by
  constructor
  · exact sortedTake_spec (fun b => b.pixels.length)
      (Pixel.discoveredBlobs cfg w h signal) cfg.maxBlobs
  · exact sortedTake_spec (fun b => b.size)
      (Cell.discoveredBlobs cfg ((w + cfg.gridSize - 1) / cfg.gridSize)
        ((h + cfg.gridSize - 1) / cfg.gridSize) (Cell.grid cfg w h signal)) cfg.maxBlobs

/-- Lemma: `updateTrail` keeps the position list within `maxTrailLength` (push
one, then `shift` when the length exceeds the cap). -/
theorem updateTrail_length_le (cfg : Config) (blob : MBlob) (t : Trail)
    (h : t.positions.length ≤ cfg.maxTrailLength) :
    (updateTrail cfg blob t).positions.length ≤ cfg.maxTrailLength := by
  simp only [updateTrail]
  split
  · rw [List.length_tail]
    simp only [List.length_append, List.length_cons, List.length_nil]
    omega
  · rename_i hle
    simp only [List.length_append, List.length_cons, List.length_nil] at hle ⊢
    omega

/-- Lemma: `setTrail` with `updateTrail` preserves the per-entry length bound. -/
theorem setTrail_length_le (cfg : Config) (blob : MBlob) (id : ℕ) (l : List (ℕ × Trail))
    (h : ∀ e ∈ l, e.2.positions.length ≤ cfg.maxTrailLength) :
    ∀ e ∈ setTrail id (updateTrail cfg blob) l,
      e.2.positions.length ≤ cfg.maxTrailLength := by
  intro e he
  simp only [setTrail, List.mem_map] at he
  rcases he with ⟨e0, he0, rfl⟩
  by_cases hid : e0.1 = id
  · simp only [if_pos hid]
    exact updateTrail_length_le cfg blob e0.2 (h e0 he0)
  · simp only [if_neg hid]
    exact h e0 he0

/-- One step of the per-blob loop preserves the per-entry length bound. -/
theorem processBlob_length_le (cfg : Config) (s : MatchState) (blob : MBlob)
    (h : ∀ e ∈ s.trails, e.2.positions.length ≤ cfg.maxTrailLength) :
    ∀ e ∈ (processBlob cfg s blob).trails,
      e.2.positions.length ≤ cfg.maxTrailLength := by
  unfold processBlob
  cases hbm : bestMatchFor cfg s.matched s.trails blob with
  | some id => exact setTrail_length_le cfg blob id s.trails h
  | none =>
      refine setTrail_length_le cfg blob s.nextId _ (fun e he => ?_)
      rcases List.mem_append.mp he with he | he
      · exact h e he
      · simp only [List.mem_singleton] at he
        subst he
        simp

/-- The whole per-blob loop preserves the per-entry length bound. -/
theorem matchPhase_length_le (cfg : Config) (blobs : List MBlob) (s : MatchState)
    (h : ∀ e ∈ s.trails, e.2.positions.length ≤ cfg.maxTrailLength) :
    ∀ e ∈ (blobs.foldl (processBlob cfg) s).trails,
      e.2.positions.length ≤ cfg.maxTrailLength := by
  induction blobs generalizing s with
  | nil => exact h
  | cons b blobs ih => exact ih (processBlob cfg s b) (processBlob_length_le cfg s b h)

/-- Every entry surviving the aging loop comes from aging an input entry,
and is left with a nonempty position list. -/
theorem agePhase_entries (cfg : Config) (l : List (ℕ × Trail)) :
    ∀ e ∈ agePhase cfg l, (∃ e0 ∈ l, e.1 = e0.1 ∧
      e.2.positions = ((e0.2.positions.map
        (fun p => { p with age := p.age - cfg.trailDecay })).filter
        (fun p => decide (0 < p.age)))) ∧ e.2.positions ≠ [] := by
  intro e he
  simp only [agePhase, List.mem_filter, List.mem_map] at he
  rcases he with ⟨⟨e0, he0, rfl⟩, hne⟩
  refine ⟨⟨e0, he0, rfl, rfl⟩, ?_⟩
  simpa [List.isEmpty_iff] using hne

/-- C9: the position sequence is a bounded FIFO and empty trails do not
survive the tick that empties them.  (a) `updateTrail` never leaves a
trail with more than `maxTrailLength` positions (it appends one record and
drops the oldest when the cap is exceeded, `src/sketch.js` lines 338-341 /
734-737); (b) if every trail in the tracker satisfies the bound, then
after a full `trackBlobs` tick every remaining trail still satisfies it
and has a nonempty position list — a trail whose sequence became empty was
deleted within that same tick (`src/sketch.js` lines 293-295 / 688-690). -/
theorem C9_bounded_fifo_and_empty_trails_removed (cfg : Config) (blob : MBlob) (t : Trail)
    (s : TrackerState) (blobs : List MBlob)
    (ht : t.positions.length ≤ cfg.maxTrailLength)
    (hs : ∀ e ∈ s.trails, e.2.positions.length ≤ cfg.maxTrailLength) :
    (updateTrail cfg blob t).positions.length ≤ cfg.maxTrailLength ∧
    ∀ e ∈ (trackBlobs cfg s blobs).1.trails,
      e.2.positions.length ≤ cfg.maxTrailLength ∧ e.2.positions ≠ [] := by
  refine ⟨updateTrail_length_le cfg blob t ht, fun e he => ?_⟩
  simp only [trackBlobs] at he
  rcases agePhase_entries cfg _ e he with ⟨⟨e0, he0, _, hpos⟩, hne⟩
  refine ⟨?_, hne⟩
  have hbound : ∀ e1 ∈ (blobs.foldl (processBlob cfg)
      { trails := s.trails.map (fun it => (it.1, { it.2 with active := false })),
        matched := [], nextId := s.nextId, bindings := [] }).trails,
      e1.2.positions.length ≤ cfg.maxTrailLength := by
    refine matchPhase_length_le cfg blobs _ (fun e1 he1 => ?_)
    simp only [List.mem_map] at he1
    rcases he1 with ⟨e2, he2, rfl⟩
    exact hs e2 he2
  calc e.2.positions.length
      ≤ (e0.2.positions.map (fun p => { p with age := p.age - cfg.trailDecay })).length := by
        rw [hpos]; exact List.length_filter_le _ _
    _ = e0.2.positions.length := List.length_map _ _
    _ ≤ cfg.maxTrailLength := hbound e0 he0

/-- C9 witness: a one-position trail within the bound, one blob binding
it, and the tick output keeps every trail bounded and nonempty. -/
theorem C9_bounded_fifo_and_empty_trails_removed_witness :
    oneAgedPosTrail.positions.length ≤ pixelConfig.maxTrailLength ∧
    (∀ e ∈ [((0 : ℕ), oneAgedPosTrail)], e.2.positions.length ≤ pixelConfig.maxTrailLength) ∧
    ((updateTrail pixelConfig { centerX := 0, centerY := 0, avgDiff := 5 }
        oneAgedPosTrail).positions.length ≤ pixelConfig.maxTrailLength ∧
      ∀ e ∈ (trackBlobs pixelConfig { trails := [(0, oneAgedPosTrail)], nextId := 1 }
          [{ centerX := 0, centerY := 0, avgDiff := 5 }]).1.trails,
        e.2.positions.length ≤ pixelConfig.maxTrailLength ∧ e.2.positions ≠ []) :=
  ⟨by simp [oneAgedPosTrail, pixelConfig], by simp [oneAgedPosTrail, pixelConfig],
    C9_bounded_fifo_and_empty_trails_removed pixelConfig _ oneAgedPosTrail
      { trails := [(0, oneAgedPosTrail)], nextId := 1 } _
      (by simp [oneAgedPosTrail, pixelConfig]) (by simp [oneAgedPosTrail, pixelConfig])⟩

/-- Invariant carried along the nearest-trail fold over the already
scanned entries `l`: with no candidate the accumulator still holds the
gate `M2` and every scanned unmatched trail with a last position is at
squared distance at least `M2`; with candidate `id` the accumulator holds
a squared distance strictly below the gate, realized by a scanned
unmatched entry with key `id`, minimal among all scanned unmatched
entries. -/
def scanInv (matched : List ℕ) (blob : MBlob) (M2 : ℚ) (l : List (ℕ × Trail))
    (acc : Option ℕ × ℚ) : Prop :=
  (acc.1 = none → acc.2 = M2 ∧ ∀ e ∈ l, e.1 ∉ matched →
      ∀ p, e.2.positions.getLast? = some p → M2 ≤ dist2 blob p) ∧
  (∀ id, acc.1 = some id → acc.2 < M2 ∧
      (∃ e ∈ l, e.1 = id ∧ id ∉ matched ∧
        ∃ p, e.2.positions.getLast? = some p ∧ dist2 blob p = acc.2) ∧
      ∀ e ∈ l, e.1 ∉ matched → ∀ p, e.2.positions.getLast? = some p → acc.2 ≤ dist2 blob p)

/-- One `matchScanStep` preserves `scanInv`, extending the scanned list. -/
theorem scanInv_step (matched : List ℕ) (blob : MBlob) (M2 : ℚ)
    (l : List (ℕ × Trail)) (acc : Option ℕ × ℚ) (e : ℕ × Trail)
    (h : scanInv matched blob M2 l acc) :
    scanInv matched blob M2 (l ++ [e]) (matchScanStep matched blob acc e) := by
  have hvac : ∀ (P : (ℕ × Trail) → Prop),
      (∀ x ∈ l, x.1 ∉ matched → P x) → (e.1 ∉ matched → P e) →
      ∀ x ∈ l ++ [e], x.1 ∉ matched → P x := by
    intro P hl he x hx hnm
    rcases List.mem_append.mp hx with hx | hx
    · exact hl x hx hnm
    · simp only [List.mem_singleton] at hx
      subst hx
      exact he hnm
  unfold matchScanStep
  by_cases hm : e.1 ∈ matched
  · rw [if_pos hm]
    refine ⟨fun hnone => ?_, fun id hid => ?_⟩
    · rcases h.1 hnone with ⟨hM, hall⟩
      exact ⟨hM, hvac _ (fun x hx hnm p hp => hall x hx hnm p hp)
        (fun hnm => absurd hm hnm)⟩
    · rcases h.2 id hid with ⟨hlt, ⟨e0, he0, he0id, he0nm, p0, hp0, hd0⟩, hmin⟩
      exact ⟨hlt, ⟨e0, List.mem_append_left _ he0, he0id, he0nm, p0, hp0, hd0⟩,
        hvac _ (fun x hx hnm p hp => hmin x hx hnm p hp) (fun hnm => absurd hm hnm)⟩
  · rw [if_neg hm]
    cases hlast : e.2.positions.getLast? with
    | none =>
        refine ⟨fun hnone => ?_, fun id hid => ?_⟩
        · rcases h.1 hnone with ⟨hM, hall⟩
          refine ⟨hM, hvac _ (fun x hx hnm p hp => hall x hx hnm p hp)
            (fun _ p hp => ?_)⟩
          rw [hlast] at hp
          exact absurd hp (by simp)
        · rcases h.2 id hid with ⟨hlt, ⟨e0, he0, he0id, he0nm, p0, hp0, hd0⟩, hmin⟩
          refine ⟨hlt, ⟨e0, List.mem_append_left _ he0, he0id, he0nm, p0, hp0, hd0⟩,
            hvac _ (fun x hx hnm p hp => hmin x hx hnm p hp) (fun _ p hp => ?_)⟩
          rw [hlast] at hp
          exact absurd hp (by simp)
    | some p0 =>
        show scanInv matched blob M2 (l ++ [e])
          (if dist2 blob p0 < acc.2 then (some e.1, dist2 blob p0) else acc)
        by_cases hd : dist2 blob p0 < acc.2
        · rw [if_pos hd]
          refine ⟨fun hnone => by simp at hnone, fun id hid => ?_⟩
          simp only [Option.some.injEq] at hid
          subst hid
          have hlt2 : dist2 blob p0 < M2 := by
            cases hacc : acc.1 with
            | none => rcases h.1 hacc with ⟨hM, _⟩; rw [← hM]; exact hd
            | some j => exact lt_trans hd (h.2 j hacc).1
          refine ⟨hlt2, ⟨e, List.mem_append_right _ (List.mem_singleton_self e),
            rfl, hm, p0, hlast, rfl⟩, hvac _ (fun x hx hnm p hp => ?_)
            (fun _ p hp => ?_)⟩
          · have hge : acc.2 ≤ dist2 blob p := by
              cases hacc : acc.1 with
              | none =>
                  rcases h.1 hacc with ⟨hM, hall⟩
                  rw [hM]
                  exact hall x hx hnm p hp
              | some j => exact (h.2 j hacc).2.2 x hx hnm p hp
            exact le_trans (le_of_lt hd) hge
          · rw [hlast] at hp
            simp only [Option.some.injEq] at hp
            subst hp
            exact le_refl _
        · rw [if_neg hd]
          push_neg at hd
          refine ⟨fun hnone => ?_, fun id hid => ?_⟩
          · rcases h.1 hnone with ⟨hM, hall⟩
            refine ⟨hM, hvac _ (fun x hx hnm p hp => hall x hx hnm p hp)
              (fun _ p hp => ?_)⟩
            rw [hlast] at hp
            simp only [Option.some.injEq] at hp
            subst hp
            rw [← hM]
            exact hd
          · rcases h.2 id hid with ⟨hlt, ⟨e0, he0, he0id, he0nm, p0', hp0', hd0⟩, hmin⟩
            refine ⟨hlt, ⟨e0, List.mem_append_left _ he0, he0id, he0nm, p0', hp0', hd0⟩,
              hvac _ (fun x hx hnm p hp => hmin x hx hnm p hp) (fun _ p hp => ?_)⟩
            rw [hlast] at hp
            simp only [Option.some.injEq] at hp
            subst hp
            exact hd


/-- The whole nearest-trail fold preserves `scanInv`. -/
theorem scanInv_foldl (matched : List ℕ) (blob : MBlob) (M2 : ℚ) :
    ∀ (l processed : List (ℕ × Trail)) (acc : Option ℕ × ℚ),
    scanInv matched blob M2 processed acc →
    scanInv matched blob M2 (processed ++ l) (l.foldl (matchScanStep matched blob) acc) := by
  intro l
  induction l with
  | nil =>
      intro processed acc h
      simpa using h
  | cons e l ih =>
      intro processed acc h
      have h2 := ih (processed ++ [e]) _ (scanInv_step matched blob M2 processed acc e h)
      simpa [List.append_assoc] using h2

/-- Characterization of `bestMatchFor`: it returns no trail exactly when
no unmatched trail's last position lies strictly within the match
distance, and when it returns a trail that trail is unmatched, strictly
within the gate, and no unmatched trail is strictly closer (squared
distances; see the module comment on `Math.sqrt`). -/
theorem bestMatchFor_spec (cfg : Config) (matched : List ℕ) (trails : List (ℕ × Trail))
    (blob : MBlob) :
    (bestMatchFor cfg matched trails blob = none →
      ∀ e ∈ trails, e.1 ∉ matched → ∀ p, e.2.positions.getLast? = some p →
        cfg.maxMatchDistance * cfg.maxMatchDistance ≤ dist2 blob p) ∧
    (∀ id, bestMatchFor cfg matched trails blob = some id →
      ∃ e ∈ trails, e.1 = id ∧ id ∉ matched ∧
        ∃ p, e.2.positions.getLast? = some p ∧
          dist2 blob p < cfg.maxMatchDistance * cfg.maxMatchDistance ∧
          ∀ e' ∈ trails, e'.1 ∉ matched → ∀ p', e'.2.positions.getLast? = some p' →
            dist2 blob p ≤ dist2 blob p') := by
  have hinit : scanInv matched blob (cfg.maxMatchDistance * cfg.maxMatchDistance) []
      ((none : Option ℕ), cfg.maxMatchDistance * cfg.maxMatchDistance) := by
    constructor
    · exact fun _ => ⟨rfl, by simp⟩
    · intro id hid
      exact absurd hid (by simp)
  have hfin := scanInv_foldl matched blob (cfg.maxMatchDistance * cfg.maxMatchDistance)
    trails [] _ hinit
  simp only [List.nil_append] at hfin
  constructor
  · intro hnone
    exact (hfin.1 hnone).2
  · intro id hid
    rcases hfin.2 id hid with ⟨hlt, ⟨e0, he0, he0id, he0nm, p0, hp0, hd0⟩, hmin⟩
    refine ⟨e0, he0, he0id, he0nm, p0, hp0, ?_, ?_⟩
    · rw [hd0]; exact hlt
    · intro e' he' hnm p' hp'
      rw [hd0]
      exact hmin e' he' hnm p' hp'

/-- C5 (amended): per blob, in detector output order, the tracker binds
the blob to a nearest unmatched trail (by Euclidean distance from the
blob centroid to the trail's most recent recorded position; squared
comparisons, see the module comment) iff that nearest distance is
STRICTLY within `maxMatchDistance` (distance < the gate); the bound trail is updated by `updateTrail`
(which marks it active) and added to the matched set; if no unmatched
trail is strictly within range, a brand-new trail is allocated with the
fresh id, initial smoothed position equal to the blob centroid, zero
velocity, zero speed, active, and is immediately updated.  Greediness is
the fold itself: each blob's scan sees the matched set left by the
earlier blobs. -/
theorem C5_greedy_nearest_strict_gate (cfg : Config) (s : MatchState) (blob : MBlob) :
    ((∃ id, bestMatchFor cfg s.matched s.trails blob = some id) ↔
      (∃ e ∈ s.trails, e.1 ∉ s.matched ∧ ∃ p, e.2.positions.getLast? = some p ∧
        dist2 blob p < cfg.maxMatchDistance * cfg.maxMatchDistance)) ∧
    (∀ id, bestMatchFor cfg s.matched s.trails blob = some id →
      (∃ e ∈ s.trails, e.1 = id ∧ id ∉ s.matched ∧
        ∃ p, e.2.positions.getLast? = some p ∧
          dist2 blob p < cfg.maxMatchDistance * cfg.maxMatchDistance ∧
          ∀ e' ∈ s.trails, e'.1 ∉ s.matched → ∀ p', e'.2.positions.getLast? = some p' →
            dist2 blob p ≤ dist2 blob p') ∧
      (∀ t, (id, t) ∈ s.trails → (id, updateTrail cfg blob t) ∈ (processBlob cfg s blob).trails) ∧
      (∀ t, (updateTrail cfg blob t).active = true) ∧
      (processBlob cfg s blob).matched = s.matched ++ [id] ∧
      (processBlob cfg s blob).bindings = s.bindings ++ [(id, false)]) ∧
    (bestMatchFor cfg s.matched s.trails blob = none →
      (processBlob cfg s blob).trails
        = setTrail s.nextId (updateTrail cfg blob)
            (s.trails ++ [(s.nextId,
              { positions := [], velocityX := 0, velocityY := 0,
                smoothedX := blob.centerX, smoothedY := blob.centerY,
                speedSq := 0, active := true })]) ∧
      (processBlob cfg s blob).bindings = s.bindings ++ [(s.nextId, true)]) := by
  refine ⟨⟨fun hex => ?_, fun hcand => ?_⟩, fun id hid => ?_, fun hnone => ?_⟩
  · rcases hex with ⟨id, hid⟩
    rcases (bestMatchFor_spec cfg s.matched s.trails blob).2 id hid with
      ⟨e, he, _, hnm, p, hp, hlt, _⟩
    exact ⟨e, he, by rwa [show e.1 = id from by assumption], p, hp, hlt⟩
  · cases hbm : bestMatchFor cfg s.matched s.trails blob with
    | some id => exact ⟨id, rfl⟩
    | none =>
        rcases hcand with ⟨e, he, hnm, p, hp, hlt⟩
        have := (bestMatchFor_spec cfg s.matched s.trails blob).1 hbm e he hnm p hp
        exact absurd hlt (not_lt.mpr this)
  · refine ⟨(bestMatchFor_spec cfg s.matched s.trails blob).2 id hid, ?_, ?_, ?_, ?_⟩
    · intro t ht
      simp only [processBlob, hid, setTrail, List.mem_map]
      exact ⟨(id, t), ht, by simp⟩
    · intro t
      rfl
    · simp only [processBlob, hid]
    · simp only [processBlob, hid]
  · constructor <;> simp only [processBlob, hnone]

/-- A trail whose last recorded position is at `(50, 0)`. -/
def trail50 : Trail :=
  { positions := [{ x := 50, y := 0, speedSq := 0, diff := 0, age := 255 }],
    velocityX := 0, velocityY := 0, smoothedX := 50, smoothedY := 0,
    speedSq := 0, active := true }

/-- C5 counterexample: a blob at the origin, and the only (unmatched)
trail's last position at `(50, 0)` — distance exactly `maxMatchDistance`
= 50, i.e. within the maximum match distance on the inclusive reading.
The code does NOT bind the blob to that trail (the gate is strict `<`):
the tick allocates a brand-new trail (binding `(1, true)`) and leaves two
trails behind. -/
theorem C5_counterexample_distance_exactly_max_not_bound :
    dist2 { centerX := 0, centerY := 0, avgDiff := 1 }
        { x := 50, y := 0, speedSq := 0, diff := 0, age := 255 }
      = pixelConfig.maxMatchDistance * pixelConfig.maxMatchDistance ∧
    (trackBlobs pixelConfig { trails := [(0, trail50)], nextId := 1 }
        [{ centerX := 0, centerY := 0, avgDiff := 1 }]).2 = [(1, true)] ∧
    ((trackBlobs pixelConfig { trails := [(0, trail50)], nextId := 1 }
        [{ centerX := 0, centerY := 0, avgDiff := 1 }]).1.trails.map Prod.fst) = [0, 1] := by
  refine ⟨by norm_num [dist2, pixelConfig], ?_, ?_⟩ <;>
    norm_num [trackBlobs, processBlob, bestMatchFor, matchScanStep, updateTrail, setTrail,
      agePhase, ageTrail, dist2, pixelConfig, trail50]

/-- The per-blob loop appends exactly one binding per processed blob. -/
theorem processBlob_bindings (cfg : Config) (s : MatchState) (blob : MBlob) :
    ∃ b, (processBlob cfg s blob).bindings = s.bindings ++ [b] := by
  unfold processBlob
  cases hbm : bestMatchFor cfg s.matched s.trails blob with
  | some id => exact ⟨(id, false), rfl⟩
  | none => exact ⟨(s.nextId, true), rfl⟩

/-- The binding list grows by exactly the number of processed blobs. -/
theorem matchPhase_bindings_length (cfg : Config) (blobs : List MBlob) (s : MatchState) :
    ((blobs.foldl (processBlob cfg) s).bindings).length = s.bindings.length + blobs.length := by
  induction blobs generalizing s with
  | nil => simp
  | cons b blobs ih =>
      rw [List.foldl_cons, ih]
      rcases processBlob_bindings cfg s b with ⟨x, hx⟩
      rw [hx]
      simp only [List.length_append, List.length_cons, List.length_nil]
      omega

/-- Per-id binding-count invariant of the per-blob loop: at most one
match binding per id and none while the id is unmatched; at most one
creation binding per id and none at or above the id counter. -/
def bindInv (id : ℕ) (ms : MatchState) : Prop :=
  ((ms.bindings.filter (fun e => decide (e.1 = id) && !e.2)).length ≤ 1) ∧
  (id ∉ ms.matched → (ms.bindings.filter (fun e => decide (e.1 = id) && !e.2)).length = 0) ∧
  ((ms.bindings.filter (fun e => decide (e.1 = id) && e.2)).length ≤ 1) ∧
  (ms.nextId ≤ id → (ms.bindings.filter (fun e => decide (e.1 = id) && e.2)).length = 0)

/-- Lemma: `processBlob` preserves `bindInv`. -/
theorem bindInv_step (cfg : Config) (s : MatchState) (blob : MBlob) (id : ℕ)
    (h : bindInv id s) : bindInv id (processBlob cfg s blob) := by
  rcases h with ⟨hf1, hf0, ht1, ht0⟩
  unfold processBlob
  cases hbm : bestMatchFor cfg s.matched s.trails blob with
  | some j =>
      have hjnm : j ∉ s.matched := by
        rcases (bestMatchFor_spec cfg s.matched s.trails blob).2 j hbm with
          ⟨e, _, _, hnm, _⟩
        exact hnm
      by_cases hij : id = j
      · subst hij
        have h0 := hf0 hjnm
        refine ⟨?_, ?_, ?_, ?_⟩ <;>
          simp only [List.filter_append, List.length_append, h0]
        · simp
        · intro hmem
          exact absurd (List.mem_append_right _ (List.mem_singleton_self id)) hmem
        · simpa using ht1
        · intro hle
          simp [ht0 hle]
      · refine ⟨?_, ?_, ?_, ?_⟩ <;>
          simp only [List.filter_append, List.length_append]
        · simpa [Ne.symm hij] using hf1
        · intro hmem
          have hidm : id ∉ s.matched := fun hc => hmem (List.mem_append_left _ hc)
          simp [Ne.symm hij, hf0 hidm]
        · simpa [Ne.symm hij] using ht1
        · intro hle
          simp [Ne.symm hij, ht0 hle]
  | none =>
      by_cases hij : id = s.nextId
      · subst hij
        have h0 := ht0 (le_refl _)
        refine ⟨?_, ?_, ?_, ?_⟩ <;>
          simp only [List.filter_append, List.length_append, h0]
        · simpa using hf1
        · intro hmem
          simp [hf0 hmem]
        · simp
        · intro hle
          omega
      · refine ⟨?_, ?_, ?_, ?_⟩ <;>
          simp only [List.filter_append, List.length_append]
        · simpa [Ne.symm hij] using hf1
        · intro hmem
          simp [Ne.symm hij, hf0 hmem]
        · simpa [Ne.symm hij] using ht1
        · intro hle
          have hle' : s.nextId ≤ id := le_trans (Nat.le_succ _) hle
          simp [Ne.symm hij, ht0 hle']

/-- The whole per-blob loop preserves `bindInv`. -/
theorem bindInv_foldl (cfg : Config) (blobs : List MBlob) (s : MatchState) (id : ℕ)
    (h : bindInv id s) : bindInv id (blobs.foldl (processBlob cfg) s) := by
  induction blobs generalizing s with
  | nil => exact h
  | cons b blobs ih => exact ih (processBlob cfg s b) (bindInv_step cfg s b id h)

/-- Splitting the per-id binding count by the created flag. -/
theorem count_fst_split (id : ℕ) (l : List (ℕ × Bool)) :
    (l.filter (fun e => decide (e.1 = id))).length
      = (l.filter (fun e => decide (e.1 = id) && !e.2)).length
        + (l.filter (fun e => decide (e.1 = id) && e.2)).length := by
  induction l with
  | nil => rfl
  | cons e l ih =>
      rcases e with ⟨i, flag⟩
      simp only [List.filter_cons]
      cases flag <;> by_cases he : i = id <;>
        simp [he, ih] <;> omega

/-- Per-id binding counts of a whole per-blob loop started with an empty
binding list: at most one match binding, at most two bindings in all. -/
theorem bindings_counts (cfg : Config) (blobs : List MBlob) (ms : MatchState)
    (h : ms.bindings = []) (id : ℕ) :
    ((blobs.foldl (processBlob cfg) ms).bindings.filter
        (fun e => decide (e.1 = id) && !e.2)).length ≤ 1 ∧
    ((blobs.foldl (processBlob cfg) ms).bindings.filter
        (fun e => decide (e.1 = id))).length ≤ 2 := by
  have hinv := bindInv_foldl cfg blobs ms id
    (by refine ⟨?_, ?_, ?_, ?_⟩ <;> simp [bindInv, h])
  rcases hinv with ⟨hf1, _, ht1, _⟩
  refine ⟨hf1, ?_⟩
  rw [count_fst_split]
  omega

/-- C10 (amended): within one tick, every blob updates exactly one trail
(one binding per blob); a trail matched as an existing trail is excluded
from matching for every later blob of the tick (at most one match binding
per trail id); but a trail NEWLY CREATED this tick is not added to the
matched set, so one later blob may bind it — each trail id is updated by
at most two blobs (its creator plus at most one later match), and the
blob-to-trail binding is not injective in general. -/
theorem C10_amended_bindings_one_per_blob_at_most_two_per_trail
    (cfg : Config) (s : TrackerState) (blobs : List MBlob) :
    (trackBlobs cfg s blobs).2.length = blobs.length ∧
    ∀ id, ((trackBlobs cfg s blobs).2.filter
        (fun e => decide (e.1 = id) && !e.2)).length ≤ 1 ∧
      ((trackBlobs cfg s blobs).2.filter (fun e => decide (e.1 = id))).length ≤ 2 := by
  simp only [trackBlobs]
  constructor
  · rw [matchPhase_bindings_length]
    simp
  · exact fun id => bindings_counts cfg blobs _ rfl id

/-- C10 counterexample: from an empty trail set, two blobs in one tick at
distance `5 < maxMatchDistance` apart.  The first blob creates trail `0`;
the second blob finds trail `0` unmatched (creation does not add to
`matchedTrailIds`, `src/sketch.js` lines 266-277 / 663-674) and binds it.
Both blobs update the same trail — bindings `[(0, created), (0, matched)]`
— which ends the tick as the single trail, holding two positions. -/
theorem C10_counterexample_two_blobs_update_one_trail :
    (trackBlobs pixelConfig { trails := [], nextId := 0 }
        [{ centerX := 0, centerY := 0, avgDiff := 1 },
          { centerX := 3, centerY := 4, avgDiff := 1 }]).2 = [(0, true), (0, false)] ∧
    ((trackBlobs pixelConfig { trails := [], nextId := 0 }
        [{ centerX := 0, centerY := 0, avgDiff := 1 },
          { centerX := 3, centerY := 4, avgDiff := 1 }]).1.trails.map Prod.fst) = [0] ∧
    ((trackBlobs pixelConfig { trails := [], nextId := 0 }
        [{ centerX := 0, centerY := 0, avgDiff := 1 },
          { centerX := 3, centerY := 4, avgDiff := 1 }]).1.trails.map
        (fun e => e.2.positions.length)) = [2] := by
  refine ⟨?_, ?_, ?_⟩ <;>
    norm_num [trackBlobs, processBlob, bestMatchFor, matchScanStep, updateTrail, setTrail,
      agePhase, ageTrail, dist2, pixelConfig]

/-- Lemma: `setTrail` at a key other than `id` leaves the entries with key `id`
untouched. -/
theorem setTrail_filter_ne (j id : ℕ) (f : Trail → Trail) (l : List (ℕ × Trail))
    (h : j ≠ id) :
    (setTrail j f l).filter (fun e => decide (e.1 = id))
      = l.filter (fun e => decide (e.1 = id)) := by
  induction l with
  | nil => rfl
  | cons e l ih =>
      show (((if e.1 = j then (e.1, f e.2) else e)) :: setTrail j f l).filter
        (fun e => decide (e.1 = id)) = _
      by_cases hej : e.1 = j
      · have hne : decide (e.1 = id) = false := by
          simp only [decide_eq_false_iff_not]
          rw [hej]
          exact h
        rw [if_pos hej]
        simp only [List.filter_cons, hne, Bool.false_eq_true, if_false]
        exact ih
      · rw [if_neg hej]
        simp only [List.filter_cons]
        rw [ih]

/-- A blob whose recorded binding does not carry key `id` leaves the
entries with key `id` untouched. -/
theorem processBlob_unbound_filter (cfg : Config) (s : MatchState) (blob : MBlob) (id : ℕ)
    (hid : id ∉ ((processBlob cfg s blob).bindings).map Prod.fst) :
    (processBlob cfg s blob).trails.filter (fun e => decide (e.1 = id))
      = s.trails.filter (fun e => decide (e.1 = id)) := by
  unfold processBlob at hid ⊢
  cases hbm : bestMatchFor cfg s.matched s.trails blob with
  | some j =>
      simp only [hbm, List.map_append, List.mem_append] at hid
      have hj : j ≠ id := by
        intro hc
        exact hid (Or.inr (by simp [hc]))
      exact setTrail_filter_ne j id _ s.trails hj
  | none =>
      simp only [hbm, List.map_append, List.mem_append] at hid
      have hj : s.nextId ≠ id := by
        intro hc
        exact hid (Or.inr (by simp [hc]))
      rw [setTrail_filter_ne s.nextId id _ _ hj, List.filter_append]
      have : decide ((s.nextId : ℕ) = id) = false := by
        simp only [decide_eq_false_iff_not]
        exact hj
      simp [this]

/-- The per-blob loop only appends to the binding list. -/
theorem matchPhase_bindings_grow (cfg : Config) (blobs : List MBlob) (s : MatchState) :
    ∃ suffix, (blobs.foldl (processBlob cfg) s).bindings = s.bindings ++ suffix := by
  induction blobs generalizing s with
  | nil => exact ⟨[], by simp⟩
  | cons b blobs ih =>
      rcases ih (processBlob cfg s b) with ⟨suffix2, hs2⟩
      rcases processBlob_bindings cfg s b with ⟨x, hx⟩
      exact ⟨[x] ++ suffix2, by rw [List.foldl_cons, hs2, hx, List.append_assoc]⟩

/-- A whole per-blob loop in which `id` is never bound leaves the entries
with key `id` untouched. -/
theorem matchPhase_unbound_filter (cfg : Config) (blobs : List MBlob) (s : MatchState)
    (id : ℕ)
    (hid : id ∉ ((blobs.foldl (processBlob cfg) s).bindings).map Prod.fst) :
    (blobs.foldl (processBlob cfg) s).trails.filter (fun e => decide (e.1 = id))
      = s.trails.filter (fun e => decide (e.1 = id)) := by
  induction blobs generalizing s with
  | nil => rfl
  | cons b blobs ih =>
      rw [List.foldl_cons] at hid ⊢
      have hid1 : id ∉ ((processBlob cfg s b).bindings).map Prod.fst := by
        intro hc
        rcases matchPhase_bindings_grow cfg blobs (processBlob cfg s b) with ⟨suffix, hs⟩
        exact hid (by rw [hs, List.map_append]; exact List.mem_append_left _ hc)
      rw [ih (processBlob cfg s b) hid, processBlob_unbound_filter cfg s b id hid1]

/-- Per-trail effect of a tick on an unbound trail id (stated over the
inner `MatchState` fold): every surviving entry with that key holds the
ages of some pre-tick entry with that key, decremented by `trailDecay`. -/
theorem matchAge_unbound (cfg : Config) (ms : MatchState) (bs : List MBlob) (id : ℕ) (c : ℚ)
    (hid : id ∉ (((bs.foldl (processBlob cfg) ms).bindings).map Prod.fst))
    (h : ∀ e ∈ ms.trails, e.1 = id → ∀ p ∈ e.2.positions, p.age ≤ c) :
    ∀ e ∈ agePhase cfg (bs.foldl (processBlob cfg) ms).trails, e.1 = id →
      ∀ p ∈ e.2.positions, p.age ≤ c - cfg.trailDecay := by
  intro e he heid p hp
  rcases agePhase_entries cfg _ e he with ⟨⟨e0, he0, hkey, hpos⟩, _⟩
  have he0id : e0.1 = id := by rw [← hkey]; exact heid
  have he0f : e0 ∈ ((bs.foldl (processBlob cfg) ms).trails.filter
      (fun x => decide (x.1 = id))) := List.mem_filter.mpr ⟨he0, by simp [he0id]⟩
  rw [matchPhase_unbound_filter cfg bs ms id hid] at he0f
  have he0m := (List.mem_filter.mp he0f).1
  have hb := h e0 he0m he0id
  rw [hpos] at hp
  rcases List.mem_filter.mp hp with ⟨hp', _⟩
  rcases List.mem_map.mp hp' with ⟨p0, hp0, rfl⟩
  simpa using sub_le_sub_right (hb p0 hp0) cfg.trailDecay

/-- Per-trail effect of a full tick on an unbound trail id: all surviving
ages drop by `trailDecay`. -/
theorem tick_unbound_ages (cfg : Config) (s : TrackerState) (bs : List MBlob) (id : ℕ)
    (c : ℚ) (hid : id ∉ ((trackBlobs cfg s bs).2.map Prod.fst))
    (h : ∀ e ∈ s.trails, e.1 = id → ∀ p ∈ e.2.positions, p.age ≤ c) :
    ∀ e ∈ (trackBlobs cfg s bs).1.trails, e.1 = id →
      ∀ p ∈ e.2.positions, p.age ≤ c - cfg.trailDecay := by
  intro e he heid p hp
  simp only [trackBlobs] at he hid
  refine matchAge_unbound cfg _ bs id c hid ?_ e he heid p hp
  intro e2 he2 he2id p2 hp2
  simp only [List.mem_map] at he2
  rcases he2 with ⟨e1, he1, rfl⟩
  exact h e1 he1 he2id p2 hp2

/-- After any tick, every surviving trail is nonempty with strictly
positive position ages (the aging filter). -/
theorem tick_post (cfg : Config) (s : TrackerState) (bs : List MBlob) :
    ∀ e ∈ (trackBlobs cfg s bs).1.trails,
      e.2.positions ≠ [] ∧ ∀ p ∈ e.2.positions, 0 < p.age := by
  intro e he
  simp only [trackBlobs] at he
  rcases agePhase_entries cfg _ e he with ⟨⟨e0, _, _, hpos⟩, hne⟩
  refine ⟨hne, fun p hp => ?_⟩
  rw [hpos] at hp
  have := (List.mem_filter.mp hp).2
  simpa using this

/-- After a nonempty run, every surviving trail is nonempty with strictly
positive ages. -/
theorem runTicks_post (cfg : Config) :
    ∀ (bss : List (List MBlob)) (s : TrackerState), bss ≠ [] →
    ∀ e ∈ (runTicks cfg s bss).trails,
      e.2.positions ≠ [] ∧ ∀ p ∈ e.2.positions, 0 < p.age := by
  intro bss
  induction bss with
  | nil => exact fun s h => absurd rfl h
  | cons bs bss ih =>
      intro s _
      cases bss with
      | nil => exact tick_post cfg s bs
      | cons bs2 bss2 => exact ih (trackBlobs cfg s bs).1 (by simp)

/-- Along a run of ticks in which the trail id is never bound, every
surviving age drops by `trailDecay` per tick. -/
theorem runTicks_unbound_age_bound (cfg : Config) (id : ℕ) :
    ∀ (bss : List (List MBlob)) (s : TrackerState) (c : ℚ),
    notBoundDuring cfg id s bss = true →
    (∀ e ∈ s.trails, e.1 = id → ∀ p ∈ e.2.positions, p.age ≤ c) →
    ∀ e ∈ (runTicks cfg s bss).trails, e.1 = id →
      ∀ p ∈ e.2.positions, p.age ≤ c - bss.length * cfg.trailDecay := by
  intro bss
  induction bss with
  | nil =>
      intro s c _ h
      simpa using h
  | cons bs bss ih =>
      intro s c hnb h
      simp only [notBoundDuring, Bool.and_eq_true] at hnb
      have hid : id ∉ ((trackBlobs cfg s bs).2.map Prod.fst) := by
        have h1 := hnb.1
        simp only [Bool.not_eq_true'] at h1
        intro hc
        simp [hc] at h1
      have h1 := tick_unbound_ages cfg s bs id c hid h
      have h2 := ih (trackBlobs cfg s bs).1 (c - cfg.trailDecay) hnb.2 h1
      intro e he heid p hp
      have h3 := h2 e he heid p hp
      calc p.age ≤ c - cfg.trailDecay - bss.length * cfg.trailDecay := h3
        _ = c - ((bss.length : ℚ) + 1) * cfg.trailDecay := by ring
        _ = c - (bs :: bss).length * cfg.trailDecay := by
            simp only [List.length_cons]
            push_cast
            ring

/-- C2: a trail none of whose recorded positions exceeds the maximum age
`255`, receiving no matching blob for `⌈255 / trailDecay⌉` consecutive
ticks, is evicted: its id is gone from the trail set at the end of those
ticks, because every position age has been decremented below zero and the
positions aged out (`src/sketch.js` lines 280-296 / 677-691, ages;
lines 330-336 / 726-732, the maximum age constant `255`). -/
theorem C2_unmatched_trail_evicted_after_ceil_ticks (cfg : Config) (id : ℕ)
    (s : TrackerState) (bss : List (List MBlob))
    (hd : 0 < cfg.trailDecay)
    (hlen : bss.length = (Int.ceil ((255 : ℚ) / cfg.trailDecay)).toNat)
    (hnb : notBoundDuring cfg id s bss = true)
    (hages : ∀ e ∈ s.trails, e.1 = id → ∀ p ∈ e.2.positions, p.age ≤ 255) :
    id ∉ (runTicks cfg s bss).trails.map Prod.fst := by
  intro hmem
  rcases List.mem_map.mp hmem with ⟨e, he, heid⟩
  have hb := runTicks_unbound_age_bound cfg id bss s 255 hnb hages e he heid
  have hceilpos : (0 : ℤ) < Int.ceil ((255 : ℚ) / cfg.trailDecay) :=
    Int.ceil_pos.mpr (by positivity)
  have hne : bss ≠ [] := by
    intro hc
    rw [hc] at hlen
    simp only [List.length_nil] at hlen
    omega
  rcases runTicks_post cfg bss s hne e he with ⟨hnonempty, hpos⟩
  rcases List.exists_mem_of_ne_nil e.2.positions hnonempty with ⟨p, hp⟩
  have h1 := hb p hp
  have h2 := hpos p hp
  have hcast : ((bss.length : ℚ)) = ((Int.ceil ((255 : ℚ) / cfg.trailDecay) : ℤ) : ℚ) := by
    rw [hlen]
    exact_mod_cast congrArg (fun z : ℤ => (z : ℚ))
      (Int.toNat_of_nonneg (le_of_lt hceilpos))
  have hgate : (255 : ℚ) ≤ (bss.length : ℚ) * cfg.trailDecay := by
    rw [hcast]
    calc (255 : ℚ) = (255 / cfg.trailDecay) * cfg.trailDecay := by
          field_simp
      _ ≤ ((Int.ceil ((255 : ℚ) / cfg.trailDecay) : ℤ) : ℚ) * cfg.trailDecay :=
          mul_le_mul_of_nonneg_right (Int.le_ceil _) (le_of_lt hd)
  linarith

/-- Lemma: `trackBlobs` of an empty blob list records no binding, so a run of
empty ticks never binds any id. -/
theorem notBoundDuring_replicate_nil (cfg : Config) (id : ℕ) :
    ∀ (k : ℕ) (s : TrackerState),
      notBoundDuring cfg id s (List.replicate k []) = true := by
  intro k
  induction k with
  | zero => intro s; rfl
  | succ k ih =>
      intro s
      simp only [List.replicate_succ, notBoundDuring]
      have hb : (trackBlobs cfg s []).2 = [] := rfl
      rw [hb]
      simp [ih]

/-- C2 witness: one trail with a single age-`255` position, `trailDecay =
8`, and `⌈255/8⌉ = 32` ticks with no blobs at all: the trail id is gone. -/
theorem C2_unmatched_trail_evicted_after_ceil_ticks_witness :
    (0 : ℚ) < pixelConfig.trailDecay ∧
    (List.replicate 32 ([] : List MBlob)).length
      = (Int.ceil ((255 : ℚ) / pixelConfig.trailDecay)).toNat ∧
    notBoundDuring pixelConfig 0 { trails := [(0, oneAgedPosTrail)], nextId := 1 }
      (List.replicate 32 []) = true ∧
    (∀ e ∈ [((0 : ℕ), oneAgedPosTrail)], e.1 = 0 →
      ∀ p ∈ e.2.positions, p.age ≤ 255) ∧
    0 ∉ (runTicks pixelConfig { trails := [(0, oneAgedPosTrail)], nextId := 1 }
      (List.replicate 32 [])).trails.map Prod.fst := by
  have h1 : (0 : ℚ) < pixelConfig.trailDecay := by norm_num [pixelConfig]
  have h2 : (List.replicate 32 ([] : List MBlob)).length
      = (Int.ceil ((255 : ℚ) / pixelConfig.trailDecay)).toNat := by
    have hc : Int.ceil ((255 : ℚ) / pixelConfig.trailDecay) = 32 := by
      rw [show pixelConfig.trailDecay = 8 from rfl, Int.ceil_eq_iff] <;> norm_num
    rw [hc]
    rfl
  have h3 := notBoundDuring_replicate_nil pixelConfig 0 32
    { trails := [(0, oneAgedPosTrail)], nextId := 1 }
  have h4 : ∀ e ∈ [((0 : ℕ), oneAgedPosTrail)], e.1 = 0 →
      ∀ p ∈ e.2.positions, p.age ≤ 255 := by
    intro e he _ p hp
    simp only [List.mem_singleton] at he
    subst he
    simp only [oneAgedPosTrail, List.mem_singleton] at hp
    subst hp
    norm_num
  exact ⟨h1, h2, h3, h4,
    C2_unmatched_trail_evicted_after_ceil_ticks pixelConfig 0
      { trails := [(0, oneAgedPosTrail)], nextId := 1 }
      (List.replicate 32 []) h1 h2 h3 h4⟩

/-- C8 witness: three updates with centroid `1`, factor `0.8`, from `0`,
land exactly at `1 * (1 - 0.8 ^ 3)`. -/
theorem C8_ema_geometric_convergence_witness :
    pixelConfig.positionSmoothFactor = (0.8 : ℚ) ∧ (0 : ℚ) ≤ 0.8 ∧ (0.8 : ℚ) ≤ 1 ∧
      ((fun tr => updateTrail pixelConfig { centerX := 1, centerY := 0, avgDiff := 0 } tr)^[3]
        { positions := [], velocityX := 0, velocityY := 0,
          smoothedX := 0, smoothedY := 0, speedSq := 0, active := false }).smoothedX
        = 1 * (1 - (0.8 : ℚ) ^ 3) :=
  ⟨by norm_num [pixelConfig], by norm_num, by norm_num,
    C8_ema_geometric_convergence pixelConfig 0.8 (by norm_num [pixelConfig]) (by norm_num)
      (by norm_num) 1 _ rfl _ rfl 3⟩

end NightShift
